import Mathlib

/-!
A verification development for the XML Grid Visualizer core
(`src/types.ts`, `src/utils.ts`, the path/grouping logic of `src/App.tsx`,
and the superseded regex prettifier kept in `src/unnamed/part_000`).

Strings are modelled as `List Char` (`Str`).  The browser's `DOMParser`,
which `parseXML` delegates to, is modelled by a recursive-descent
well-formedness parser over the XML subset the tool exercises: elements,
attributes, text with the five predefined entities, and CDATA sections.
`Math.random`-based id generation is modelled by a counter threaded through
the conversion; every claim about parsed trees compares nodes up to ids.
-/

abbrev Str := List Char

def str (s : String) : Str := s.toList

/-- The apostrophe character, written via its code point. -/
def apos : Char := Char.ofNat 39

/-- Whitespace as treated by JavaScript's `trim`, the `\s` regex class and
the XML parser, restricted to the four ASCII whitespace characters that
actually occur in this tool's inputs and outputs. -/
def isWS (c : Char) : Bool := c = ' ' || c = '\t' || c = '\r' || c = '\n'

/-- Model of JavaScript `String.prototype.trim`. -/
def jsTrim (s : Str) : Str := ((s.dropWhile isWS).reverse.dropWhile isWS).reverse

/-! ## Data model (src/types.ts) -/

structure XMLAttribute where
  name : Str
  value : Str

structure XMLNode where
  id : Nat
  name : Str
  attributes : List XMLAttribute
  children : List XMLNode
  content : Option Str

structure ParseResult where
  root : Option XMLNode
  error : Option Str

/-! ## Escaping and serialization (src/utils.ts, lines 88-130) -/

/-- One global single-character replacement, the model of
`String.prototype.replace` with a `/x/g` single-character pattern. -/
def replaceAll (c : Char) (r : Str) : Str → Str
  | [] => []
  | x :: s => (if x = c then r else [x]) ++ replaceAll c r s

/-- `escapeXML` from src/utils.ts: five chained global replacements, with
`&` replaced first. -/
def escapeXML (s : Str) : Str :=
  replaceAll apos (str "&apos;")
    (replaceAll '"' (str "&quot;")
      (replaceAll '>' (str "&gt;")
        (replaceAll '<' (str "&lt;")
          (replaceAll '&' (str "&amp;") s))))

/-- `'  '.repeat(level)`: the two-space indentation of `serializeXML`. -/
def indentStr (level : Nat) : Str := (List.replicate level (str "  ")).flatten

/-- The serialized attribute list: each attribute contributes
` name="escapedValue"`, in order. -/
def attrsStr : List XMLAttribute → Str
  | [] => []
  | a :: rest => (' ' :: (a.name ++ '=' :: '"' :: (escapeXML a.value ++ ['"']))) ++ attrsStr rest

/-- `node.content !== null && node.content.length > 0`. -/
def hasContentB : Option Str → Bool
  | none => false
  | some c => c.length > 0

mutual
/-- `serializeXML` from src/utils.ts: opening tag with escaped attributes,
self-closing form when there is neither content nor children, inline escaped
content, and children each on their own CRLF-terminated line one indent
level deeper. -/
def serializeXML : XMLNode → Nat → Str
  | ⟨_, name, attributes, children, content⟩, level =>
    let indent := indentStr level
    let xmlOpen := indent ++ '<' :: (name ++ attrsStr attributes)
    let hasChildren := children.length > 0
    let hasContent := hasContentB content
    if !hasChildren && !hasContent then xmlOpen ++ str "/>"
    else
      (xmlOpen ++ ['>'])
      ++ (if hasContent then escapeXML (content.getD []) else [])
      ++ (if hasChildren then
            str "\r\n" ++ serializeChildren children (level + 1) ++ indent
          else [])
      ++ ('<' :: '/' :: (name ++ ['>']))

/-- The `node.children.forEach` loop of `serializeXML`: each child is
serialized at `level + 1` and followed by CRLF. -/
def serializeChildren : List XMLNode → Nat → Str
  | [], _ => []
  | c :: cs, level => serializeXML c level ++ str "\r\n" ++ serializeChildren cs level
end

example :
    serializeXML ⟨0, str "n", [⟨str "a", str "1"⟩, ⟨str "b", str "2"⟩], [], some (str "text")⟩ 0
      = str "<n a=\"1\" b=\"2\">text</n>" := rfl

example :
    serializeXML ⟨0, str "x", [], [⟨1, str "y", [], [], some (str "1")⟩], none⟩ 0
      = str "<x>\r\n  <y>1</y>\r\n</x>" := rfl

/-! ## DOM model

The browser `DOMParser` that `parseXML` delegates to is modelled by a
recursive-descent parser producing this DOM: element nodes and character
data nodes.  Text runs and CDATA sections become separate `text` nodes,
exactly as `Node.TEXT_NODE` and `Node.CDATA_SECTION_NODE` children are
distinct entries of `childNodes` (the distinction matters, because
`convertNode` trims each fragment separately). -/

inductive Dom where
  | elem (name : Str) (attrs : List (Str × Str)) (children : List Dom)
  | text (s : Str)

def isNameStart (c : Char) : Bool := c.isAlpha || c = '_' || c = ':'

def isNameChar (c : Char) : Bool := isNameStart c || c.isDigit || c = '-' || c = '.'

def skipWS (s : Str) : Str := s.dropWhile isWS

/-- Parse an XML name: a name-start character followed by name characters,
consumed greedily. -/
def parseName : Str → Option (Str × Str)
  | [] => none
  | c :: s =>
    if isNameStart c then some (c :: s.takeWhile isNameChar, s.dropWhile isNameChar)
    else none

/-- Parse character data up to the next `<` (or the end of input),
resolving the five predefined entities; a bare or unknown `&` is a
well-formedness error. -/
def parseText : Str → Option (Str × Str)
  | [] => some ([], [])
  | '&' :: 'a' :: 'm' :: 'p' :: ';' :: r => (parseText r).map (fun p => ('&' :: p.1, p.2))
  | '&' :: 'l' :: 't' :: ';' :: r => (parseText r).map (fun p => ('<' :: p.1, p.2))
  | '&' :: 'g' :: 't' :: ';' :: r => (parseText r).map (fun p => ('>' :: p.1, p.2))
  | '&' :: 'q' :: 'u' :: 'o' :: 't' :: ';' :: r => (parseText r).map (fun p => ('"' :: p.1, p.2))
  | '&' :: 'a' :: 'p' :: 'o' :: 's' :: ';' :: r => (parseText r).map (fun p => (apos :: p.1, p.2))
  | c :: s =>
    if c = '<' then some ([], c :: s)
    else if c = '&' then none
    else (parseText s).map (fun p => (c :: p.1, p.2))

/-- Parse an attribute value up to the closing quote `q`, resolving the
five predefined entities; a raw `<` or a bad entity is an error.  A
literal tab, newline or carriage return is kept as it is, whereas a real
parser's attribute-value normalization replaces it by a space: exact
recovery of attribute values is therefore only asserted for values
without them, as `parseXML` itself produces. -/
def parseAttrValue (q : Char) : Str → Option (Str × Str)
  | [] => none
  | '&' :: 'a' :: 'm' :: 'p' :: ';' :: r => (parseAttrValue q r).map (fun p => ('&' :: p.1, p.2))
  | '&' :: 'l' :: 't' :: ';' :: r => (parseAttrValue q r).map (fun p => ('<' :: p.1, p.2))
  | '&' :: 'g' :: 't' :: ';' :: r => (parseAttrValue q r).map (fun p => ('>' :: p.1, p.2))
  | '&' :: 'q' :: 'u' :: 'o' :: 't' :: ';' :: r => (parseAttrValue q r).map (fun p => ('"' :: p.1, p.2))
  | '&' :: 'a' :: 'p' :: 'o' :: 's' :: ';' :: r => (parseAttrValue q r).map (fun p => (apos :: p.1, p.2))
  | c :: s =>
    if c = '<' then none
    else if c = '&' then none
    else if c = q then some ([], s)
    else (parseAttrValue q s).map (fun p => (c :: p.1, p.2))

/-- Scan the body of a CDATA section up to the terminating `]]>`. -/
def scanCDATA : Str → Option (Str × Str)
  | ']' :: ']' :: '>' :: r => some ([], r)
  | c :: s => (scanCDATA s).map (fun p => (c :: p.1, p.2))
  | [] => none

/-- Recognize the opening `[CDATA[` that must follow `<!` for a CDATA
section, returning the section body and what follows. -/
def parseCDATAOpen : Str → Option Str
  | '[' :: 'C' :: 'D' :: 'A' :: 'T' :: 'A' :: '[' :: body => some body
  | _ => none

/-- Parse the attribute list of an opening tag, stopping in front of `/`
or `>`.  Each iteration consumes at least one character, so the fuel
`input length + 1` with which it is invoked never runs out first.  The
uniqueness of attribute names is not re-checked here, whereas a real
parser rejects a repeated attribute name in one start-tag as a fatal
error: error-free re-parsing is therefore only asserted for serialized
trees that `parseXML` returned, which carry no duplicates. -/
def parseAttrs : Nat → Str → Option (List (Str × Str) × Str)
  | 0, _ => none
  | fuel + 1, s =>
    match skipWS s with
    | [] => none
    | c :: s1 =>
      if c = '/' then some ([], c :: s1)
      else if c = '>' then some ([], c :: s1)
      else
        match parseName (c :: s1) with
        | none => none
        | some (n, s2) =>
          match skipWS s2 with
          | '=' :: s4 =>
            match skipWS s4 with
            | q :: s6 =>
              if q = '"' || q = apos then
                match parseAttrValue q s6 with
                | none => none
                | some (v, s7) =>
                  match parseAttrs fuel s7 with
                  | none => none
                  | some (rest, s8) => some ((n, v) :: rest, s8)
              else none
            | [] => none
          | _ => none

mutual
/-- Parse one element: `<name attrs/>` or `<name attrs>content</name>`,
requiring the closing name to match. -/
def parseElement : Nat → Str → Option (Dom × Str)
  | 0, _ => none
  | fuel + 1, s =>
    match s with
    | '<' :: s1 =>
      match parseName s1 with
      | none => none
      | some (n, s2) =>
        match parseAttrs (s2.length + 1) s2 with
        | none => none
        | some (attrs, s3) =>
          match s3 with
          | '/' :: '>' :: s4 => some (.elem n attrs [], s4)
          | '>' :: s4 =>
            match parseContent fuel s4 with
            | none => none
            | some (items, s5) =>
              match s5 with
              | '<' :: '/' :: s6 =>
                match parseName s6 with
                | none => none
                | some (n2, s7) =>
                  match skipWS s7 with
                  | '>' :: s9 => if n2 = n then some (.elem n attrs items, s9) else none
                  | _ => none
              | _ => none
          | _ => none
    | _ => none

/-- Parse element content: a sequence of text runs, CDATA sections and
child elements, stopping in front of a closing tag `</`. -/
def parseContent : Nat → Str → Option (List Dom × Str)
  | 0, _ => none
  | fuel + 1, s =>
    match s with
    | [] => none
    | c :: s' =>
      if c = '<' then
        match s' with
        | [] => none
        | c2 :: s'' =>
          if c2 = '/' then some ([], c :: s')
          else if c2 = '!' then
            match parseCDATAOpen s'' with
            | none => none
            | some body =>
              match scanCDATA body with
              | none => none
              | some (t, s3) =>
                match parseContent fuel s3 with
                | none => none
                | some (ds, s4) => some (.text t :: ds, s4)
          else
            match parseElement fuel (c :: s') with
            | none => none
            | some (d, s2) =>
              match parseContent fuel s2 with
              | none => none
              | some (ds, s3) => some (d :: ds, s3)
      else
        match parseText (c :: s') with
        | none => none
        | some (t, s2) =>
          match parseContent fuel s2 with
          | none => none
          | some (ds, s3) => some (.text t :: ds, s3)
end

/-- The model of `DOMParser.parseFromString(-, "text/xml")` combined with
the `querySelector("parsererror")` check on failure: either a parsed
document element or a diagnostic message.  The input is taken as it is —
the line-ending normalization (carriage return and CRLF becoming a line
feed) of a real parser is not modelled — so content equalities are only
asserted for serializations of parser-produced trees, whose content
holds no carriage return. -/
def domParse (s : Str) : Except Str Dom :=
  match parseElement (s.length + 1) (skipWS s) with
  | none => .error (str "syntax error in XML input")
  | some (d, rest) =>
    if skipWS rest = [] then .ok d
    else .error (str "extra content after document element")

example :
    domParse (str "<a x=\"1\">hi<b/></a>")
      = .ok (.elem (str "a") [(str "x", str "1")]
          [.text (str "hi"), .elem (str "b") [] []]) := rfl

/-! ## Conversion to the tree model (src/utils.ts, lines 32-62)

`generateId` (`Math.random().toString(36).substr(2, 9)`) only has to be
unique within one parse; it is modelled by a counter threaded through the
conversion, and all tree comparisons in the claims are made up to ids. -/

/-- Construction of one converted `XMLNode` from `convertNode`'s return
statement: attributes copied in order, and the accumulated content trimmed
with the empty result mapped to null (`content.trim() || null`). -/
def mkConvertedNode (name : Str) (attrs : List (Str × Str)) (children : List XMLNode)
    (content : Str) (k : Nat) : XMLNode :=
  ⟨k, name, attrs.map (fun p => ⟨p.1, p.2⟩), children,
    if jsTrim content = [] then none else some (jsTrim content)⟩

mutual
/-- `convertNode` from src/utils.ts applied to a DOM node, with the id
counter threaded through; only ever invoked on element nodes (text nodes
are consumed by the child loop), so the text case returns a placeholder.
-/
def convertDom : Dom → Nat → XMLNode × Nat
  | .text _, k => (⟨k, [], [], [], none⟩, k)
  | .elem n a cs, k =>
    let (children, content, k1) := convertChildren cs k
    (mkConvertedNode n a children content k1, k1 + 1)

/-- The `domNode.childNodes.forEach` loop of `convertNode`: element
children are converted recursively, text and CDATA fragments are trimmed
and the non-empty ones are appended to the content accumulator followed by
a single space.  Returns the converted children, the accumulated content
and the next fresh id. -/
def convertChildren : List Dom → Nat → List XMLNode × Str × Nat
  | [], k => ([], [], k)
  | .elem n a cs :: rest, k =>
    let (node, k1) := convertDom (.elem n a cs) k
    let (ns, content, k2) := convertChildren rest k1
    (node :: ns, content, k2)
  | .text t :: rest, k =>
    let (ns, content, k2) := convertChildren rest k
    let text := jsTrim t
    (ns, (if text.isEmpty then [] else text ++ [' ']) ++ content, k2)
end

/-- `convertNode` applied to a DOM element given by its parts. -/
def convertElem (name : Str) (attrs : List (Str × Str)) (domChildren : List Dom)
    (k : Nat) : XMLNode × Nat :=
  convertDom (.elem name attrs domChildren) k

mutual
/-- `doc.querySelector("parsererror")`: the first element in document
order whose tag name is exactly `parsererror` (CSS type selectors are
case-sensitive in XML documents). -/
def findParserError : Dom → Option Dom
  | .text _ => none
  | .elem n a cs =>
    if n = str "parsererror" then some (.elem n a cs) else findParserErrorL cs

/-- Document-order search of a child list for a `parsererror` element. -/
def findParserErrorL : List Dom → Option Dom
  | [] => none
  | d :: ds =>
    match findParserError d with
    | some e => some e
    | none => findParserErrorL ds
end

mutual
/-- `Node.textContent`: the concatenation of all descendant character
data, used for the diagnostic text of a parser error node. -/
def textContent : Dom → Str
  | .text t => t
  | .elem _ _ cs => textContentL cs

/-- `textContent` of a list of siblings, in order. -/
def textContentL : List Dom → Str
  | [] => []
  | d :: ds => textContent d ++ textContentL ds
end

/-! ## parseXML (src/utils.ts, lines 6-85) -/

/-- The match of the regex `^\s*<\?xml[^>]*\?>` (flag `i`) at the start of
the input, returning the matched text and the remainder.  Since `[^>]*`
cannot cross a `>`, the regex matches exactly when the first `>` after
`<?xml` is preceded by `?`. -/
def matchXMLDecl (s : Str) : Option (Str × Str) :=
  let w := s.takeWhile isWS
  match s.dropWhile isWS with
  | '<' :: '?' :: c1 :: c2 :: c3 :: rest =>
    if c1.toLower = 'x' && c2.toLower = 'm' && c3.toLower = 'l' then
      let body := rest.takeWhile (fun c => !(c = '>'))
      match rest.dropWhile (fun c => !(c = '>')) with
      | '>' :: r =>
        if body.getLast? = some '?' then
          some (w ++ ('<' :: '?' :: c1 :: c2 :: c3 :: body) ++ ['>'], r)
        else none
      | _ => none
    else none
  | _ => none

/-- `xmlString.replace(/^\s*<\?xml[^>]*\?>/i, '')`. -/
def stripXMLDecl (s : Str) : Str :=
  match matchXMLDecl s with
  | some (_, r) => r
  | none => s

/-- `replace(/^\s*<!DOCTYPE[^>]*>/i, '')`: drop a leading DOCTYPE
declaration up to the first `>`. -/
def stripDOCTYPE (s : Str) : Str :=
  match s.dropWhile isWS with
  | '<' :: '!' :: c1 :: c2 :: c3 :: c4 :: c5 :: c6 :: c7 :: rest =>
    if [c1.toLower, c2.toLower, c3.toLower, c4.toLower, c5.toLower, c6.toLower, c7.toLower]
        = str "doctype" then
      match rest.dropWhile (fun c => !(c = '>')) with
      | '>' :: r => r
      | _ => s
    else s
  | _ => s

/-- JavaScript truthiness of the optional content string
(`!convertedWrapper.content`): absent and empty are both falsy. -/
def contentFalsy : Option Str → Bool
  | none => true
  | some c => c.isEmpty

/-- `parseXML` from src/utils.ts: empty and all-whitespace input is the
valid empty state; otherwise the input, stripped of a leading XML
declaration and DOCTYPE, is wrapped in the dummy root `<__root__>`,
handed to the DOM parser, checked for a `parsererror` element, converted,
and finally unwrapped (single child, falsy content, no attributes) or
renamed to `root`. -/
def parseXML (xmlString : Str) : ParseResult :=
  if jsTrim xmlString = [] then ⟨none, none⟩
  else
    let sanitizedXml := stripDOCTYPE (stripXMLDecl xmlString)
    let wrappedXml := str "<__root__>" ++ sanitizedXml ++ str "</__root__>"
    match domParse wrappedXml with
    | .error m => ⟨none, some (str "Invalid XML: " ++ m)⟩
    | .ok doc =>
      match findParserError doc with
      | some e => ⟨none, some (str "Invalid XML: " ++ textContent e)⟩
      | none =>
        match doc with
        | .text _ => ⟨none, some (str "Invalid XML: no document element")⟩
        | .elem n a cs =>
          let convertedWrapper := (convertElem n a cs 0).1
          if convertedWrapper.children.length = 1
              && contentFalsy convertedWrapper.content
              && convertedWrapper.attributes.isEmpty then
            ⟨convertedWrapper.children.head?, none⟩
          else
            ⟨some { convertedWrapper with name := str "root" }, none⟩

/-! ## prettifyXML (src/utils.ts, lines 132-177) -/

/-- `prettifyXML` from src/utils.ts: parse, fall back to the original text
on error or empty result, otherwise re-emit a leading XML declaration
verbatim and serialize the parsed root. -/
def prettifyXML (xml : Str) : Str :=
  let r := parseXML xml
  match r.error with
  | some _ => xml
  | none =>
    match r.root with
    | none => xml
    | some root =>
      let result :=
        match matchXMLDecl xml with
        | some (m, _) => m ++ str "\r\n"
        | none => []
      result ++ serializeXML root 0

example :
    (parseXML (str "<x><y>1</y></x>")).root
      = some ⟨1, str "x", [], [⟨0, str "y", [], [], some (str "1")⟩], none⟩ := rfl

example :
    (parseXML (str "<a/><b/>")).root
      = some ⟨2, str "root", [], [⟨0, str "a", [], [], none⟩, ⟨1, str "b", [], [], none⟩],
          none⟩ := rfl

example : parseXML (str "   ") = ⟨none, none⟩ := rfl

example :
    prettifyXML (str "not xml at all") = str "<root>not xml at all</root>" := rfl

example : prettifyXML (str "<a") = str "<a" := rfl

example :
    prettifyXML (str "<?xml version=\"1.0\"?><a><b>x</b></a>")
      = str "<?xml version=\"1.0\"?>\r\n<a>\r\n  <b>x</b>\r\n</a>" := rfl

/-! ## The superseded regex-based prettifier (src/unnamed/part_000) -/

/-- The JavaScript regex word class `\w`. -/
def isWordChar (c : Char) : Bool := c.isAlphanum || c = '_'

/-- Worker for `split(/>\s*</)`: a separator is a `>` whose next
non-whitespace character is `<` (since `\s*` cannot skip anything else
before the required `<`).  Each step consumes at least one character, so
fuel `input length + 1` never runs out first. -/
def splitTagsAux : Nat → Str → Str → List Str
  | 0, _, acc => [acc.reverse]
  | fuel + 1, s, acc =>
    match s with
    | [] => [acc.reverse]
    | '>' :: r =>
      match r.dropWhile isWS with
      | '<' :: r2 => acc.reverse :: splitTagsAux fuel r2 []
      | _ => splitTagsAux fuel r ('>' :: acc)
    | c :: r => splitTagsAux fuel r (c :: acc)

/-- `xml.split(/>\s*</)`. -/
def splitTags (s : Str) : List Str := splitTagsAux (s.length + 1) s []

/-- `node.match(/^\/\w/)`: a closing-tag-like piece. -/
def matchesCloseStart : Str → Bool
  | '/' :: c :: _ => isWordChar c
  | _ => false

/-- `node.match(/^<?\w[^>]*[^\/]$/)`: an opening-tag-like piece.  After
the optional `<`, there must be a word character, at least one more
character, no `>` before the final character, and a final character other
than `/`. -/
def matchesOpenTag (node : Str) : Bool :=
  let t :=
    match node with
    | '<' :: rest => rest
    | _ => node
  match t with
  | c :: rest =>
    isWordChar c && !rest.isEmpty
      && rest.dropLast.all (fun x => !(x = '>'))
      && (match rest.getLast? with
          | some l => !(l = '/')
          | none => false)
  | [] => false

/-- JavaScript `String.prototype.substring`: negative bounds clamp to 0,
bounds above the length clamp to the length, and swapped bounds are
exchanged. -/
def jsSubstring (s : Str) (start finish : Int) : Str :=
  let len : Int := s.length
  let a := min (max start 0) len
  let b := min (max finish 0) len
  let lo := min a b
  let hi := max a b
  (s.take hi.toNat).drop lo.toNat

/-- The superseded regex-based `prettifyXML` from src/unnamed/part_000:
split the raw text on `>\s*<` boundaries, re-wrap every piece in angle
brackets on its own CRLF line, and track the indentation depth by matching
closing-tag-like and opening-tag-like patterns textually; finally chop the
duplicated leading `<` and trailing `>\r\n`. -/
def prettifyXMLRegex (xml : Str) : Str :=
  let tab := str "  "
  let step := fun (acc : Str × Str) (node : Str) =>
    let (formatted, indent) := acc
    let indent1 := if matchesCloseStart node then indent.drop tab.length else indent
    let formatted1 := formatted ++ indent1 ++ '<' :: (node ++ '>' :: str "\r\n")
    let indent2 := if matchesOpenTag node then indent1 ++ tab else indent1
    (formatted1, indent2)
  let formatted := ((splitTags xml).foldl step ([], [])).1
  jsSubstring formatted 1 ((formatted.length : Int) - 3)

/-! ## Path addressing and sibling grouping (src/App.tsx) -/

/-- `getIndexedPath` from src/App.tsx (lines 45-50): append a 1-based
index in brackets only when the group has more than one member. -/
def getIndexedPath (basePath tagName : Str) (index total : Nat) : Str :=
  if total > 1 then
    basePath ++ '/' :: (tagName ++ '[' :: (str (Nat.repr (index + 1)) ++ [']']))
  else basePath ++ '/' :: tagName

/-- One step of the `node.children.forEach` accumulation of `GridNode`'s
`groupedChildren`: push onto this tag's group if it exists, otherwise
append a new group (JavaScript object keys preserve first-insertion
order). -/
def addToGroups : List (Str × List XMLNode) → XMLNode → List (Str × List XMLNode)
  | [], c => [(c.name, [c])]
  | (n, g) :: rest, c =>
    if n = c.name then (n, g ++ [c]) :: rest else (n, g) :: addToGroups rest c

/-- `groupedChildren` from `GridNode` (src/App.tsx lines 267-276). -/
def groupedChildren (children : List XMLNode) : List (Str × List XMLNode) :=
  children.foldl addToGroups []

/-- Group lookup, the model of `groups[tagName]`. -/
def lookupGroup (n : Str) : List (Str × List XMLNode) → Option (List XMLNode)
  | [] => none
  | (m, g) :: rest => if m = n then some g else lookupGroup n rest

/-- The address the rendering assigns to the members of one sibling group:
a group of several is rendered as a `NodeTable` whose row paths are
`parentPath/tagName[nodeIndex + 1]` (src/App.tsx lines 143-144); a group
of exactly one is rendered as a nested `GridNode` at
`currentPath/tagName` (src/App.tsx line 376). -/
def pathsOfGroup (parentPath tagName : Str) (group : List XMLNode) : List Str :=
  if group.length > 1 then
    (List.range group.length).map
      (fun nodeIndex =>
        parentPath ++ '/' :: (tagName ++ '[' :: (str (Nat.repr (nodeIndex + 1)) ++ [']'])))
  else [parentPath ++ '/' :: tagName]

/-- The expand/collapse propagation test of `GridNode` (src/App.tsx lines
235-239, and likewise for `EXPAND_PATH`/`COLLAPSE_PATH` in
src/unnamed/part_001): a node at `currentPath` reacts to an action
targeting `path` exactly when `currentPath.startsWith(path)` — a plain
string comparison on the whole address. -/
def pathActionAffects (targetPath currentPath : Str) : Bool :=
  targetPath.isPrefixOf currentPath

/-- An address split into its `/`-separated segments. -/
def pathSegments (p : Str) : List Str := p.splitOn '/'

example :
    splitTags (str "<aa><![CDATA[a></b]]></aa>")
      = [str "<aa", str "![CDATA[a", str "/b]]", str "/aa>"] := rfl

example :
    prettifyXMLRegex (str "<aa><![CDATA[a></b]]></aa>")
      = str "<aa>\r\n  <![CDATA[a>\r\n</b]]>\r\n</aa>" := rfl

example :
    prettifyXMLRegex (str "<aa x=\">\"><bb/></aa>")
      = str "<aa x=\">\">\r\n<bb/>\r\n</aa>" := rfl

example :
    prettifyXML (str "<aa x=\">\"><bb/></aa>")
      = str "<aa x=\"&gt;\">\r\n  <bb/>\r\n</aa>" := rfl

example :
    (parseXML (str "<aa><![CDATA[a></b]]></aa>")).root.map XMLNode.content
      = some (some (str "a></b")) := rfl

example :
    (parseXML (prettifyXMLRegex (str "<aa><![CDATA[a></b]]></aa>"))).root.map XMLNode.content
      = some (some (str "a>\r\n</b")) := rfl

example :
    getIndexedPath (str "/list") (str "item") 0 3 = str "/list/item[1]" := rfl

/-! ## Whitespace and trimming facts -/

theorem takeWhile_append_all {p : Char → Bool} (t r : Str) (h : t.all p = true) :
    (t ++ r).takeWhile p = t ++ r.takeWhile p := by
  induction t with
  | nil => simp
  | cons c t ih =>
    simp only [List.all_cons, Bool.and_eq_true] at h
    simp [List.takeWhile_cons, h.1, ih h.2]

theorem dropWhile_append_all {p : Char → Bool} (t r : Str) (h : t.all p = true) :
    (t ++ r).dropWhile p = r.dropWhile p := by
  induction t with
  | nil => simp
  | cons c t ih =>
    simp only [List.all_cons, Bool.and_eq_true] at h
    simp [List.dropWhile_cons, h.1, ih h.2]

theorem dropWhile_append_ne {p : Char → Bool} (t r : Str) (h : t.dropWhile p ≠ []) :
    (t ++ r).dropWhile p = t.dropWhile p ++ r := by
  induction t with
  | nil => simp at h
  | cons c t ih =>
    by_cases hc : p c
    · rw [List.cons_append, List.dropWhile_cons, if_pos hc, List.dropWhile_cons, if_pos hc]
      exact ih (by simpa [List.dropWhile_cons, hc] using h)
    · simp [List.dropWhile_cons, hc]

theorem dropWhile_idem {p : Char → Bool} (s : Str) :
    (s.dropWhile p).dropWhile p = s.dropWhile p := by
  induction s with
  | nil => rfl
  | cons c s ih =>
    by_cases hc : p c
    · simpa [List.dropWhile_cons, hc] using ih
    · simp [List.dropWhile_cons, hc]

theorem head_dropWhile_false {p : Char → Bool} (s : Str) (c : Char) (r : Str)
    (h : s.dropWhile p = c :: r) : p c = false := by
  induction s with
  | nil => simp at h
  | cons x s ih =>
    by_cases hx : p x
    · exact ih (by simpa [List.dropWhile_cons, hx] using h)
    · simp only [List.dropWhile_cons, hx, if_neg] at h
      cases h
      simpa using hx

theorem dropWhile_ne_of_mem {p : Char → Bool} (s : Str) (c : Char)
    (hm : c ∈ s) (hc : p c = false) : s.dropWhile p ≠ [] := by
  induction s with
  | nil => simp at hm
  | cons x s ih =>
    by_cases hx : p x
    · rcases List.mem_cons.mp hm with rfl | hm'
      · rw [hx] at hc
        cases hc
      · simpa [List.dropWhile_cons, hx] using ih hm'
    · simp [List.dropWhile_cons, hx]

theorem jsTrim_nil : jsTrim [] = [] := rfl

theorem jsTrim_ws_append (w t : Str) (h : w.all isWS = true) :
    jsTrim (w ++ t) = jsTrim t := by
  simp [jsTrim, dropWhile_append_all w t h]

theorem jsTrim_all_ws (w : Str) (h : w.all isWS = true) : jsTrim w = [] := by
  have := jsTrim_ws_append w [] h
  simpa [jsTrim_nil] using this

theorem jsTrim_append_ws (t w : Str) (h : w.all isWS = true) :
    jsTrim (t ++ w) = jsTrim t := by
  by_cases ht : t.dropWhile isWS = []
  · have htall : t.all isWS = true := by
      rw [List.all_eq_true]
      intro x hx
      exact List.dropWhile_eq_nil_iff.mp ht x hx
    have h1 := dropWhile_append_all t w htall
    calc jsTrim (t ++ w) = jsTrim w := by simp only [jsTrim, h1]
      _ = [] := jsTrim_all_ws w h
      _ = jsTrim t := (jsTrim_all_ws t htall).symm
  · have h1 : (t ++ w).dropWhile isWS = t.dropWhile isWS ++ w := dropWhile_append_ne t w ht
    have h2 : ((t.dropWhile isWS ++ w).reverse).dropWhile isWS
        = ((t.dropWhile isWS).reverse).dropWhile isWS := by
      rw [List.reverse_append]
      exact dropWhile_append_all _ _ (by simpa using h)
    simp only [jsTrim, h1, h2]

theorem getLast?_dropWhile {p : Char → Bool} (s : Str) (h : s.dropWhile p ≠ []) :
    (s.dropWhile p).getLast? = s.getLast? := by
  induction s with
  | nil => simp at h
  | cons c s ih =>
    by_cases hc : p c
    · have h' : s.dropWhile p ≠ [] := by simpa [List.dropWhile_cons, hc] using h
      rw [List.dropWhile_cons, if_pos hc, ih h']
      cases s with
      | nil => simp [List.dropWhile_nil] at h'
      | cons d t => simp
    · simp [List.dropWhile_cons, hc]

theorem dropWhile_of_head_false {p : Char → Bool} (s : Str)
    (h : ∀ c, s.head? = some c → p c = false) : s.dropWhile p = s := by
  cases s with
  | nil => rfl
  | cons c r => simp [List.dropWhile_cons, h c rfl]

theorem jsTrim_idem (s : Str) : jsTrim (jsTrim s) = jsTrim s := by
  by_cases hb : ((s.dropWhile isWS).reverse).dropWhile isWS = []
  · simp [jsTrim, hb]
  · have hA : (((s.dropWhile isWS).reverse).dropWhile isWS).reverse.dropWhile isWS
        = (((s.dropWhile isWS).reverse).dropWhile isWS).reverse := by
      apply dropWhile_of_head_false
      intro c hc
      rw [List.head?_reverse] at hc
      rw [getLast?_dropWhile _ hb, List.getLast?_reverse] at hc
      cases ha2 : s.dropWhile isWS with
      | nil => rw [ha2] at hc; simp at hc
      | cons x r2 =>
        rw [ha2] at hc
        simp only [List.head?_cons, Option.some_inj] at hc
        rw [← hc]
        exact head_dropWhile_false s x r2 ha2
    have hB : ((((s.dropWhile isWS).reverse).dropWhile isWS).reverse.reverse).dropWhile isWS
        = ((s.dropWhile isWS).reverse).dropWhile isWS := by
      rw [List.reverse_reverse]
      exact dropWhile_idem _
    simp only [jsTrim, hA, hB]

theorem jsTrim_eq_nil_iff (s : Str) : jsTrim s = [] ↔ s.all isWS = true := by
  constructor
  · intro h
    rw [List.all_eq_true]
    intro x hx
    by_contra hxw
    have hxw' : isWS x = false := by simpa using hxw
    have hx1 : x ∈ s.dropWhile isWS := by
      have hsplit := List.takeWhile_append_dropWhile (p := isWS) (l := s)
      have hmem : x ∈ s.takeWhile isWS ++ s.dropWhile isWS := by rw [hsplit]; exact hx
      rcases List.mem_append.mp hmem with h1 | h2
      · have h3 := List.mem_takeWhile_imp h1
        rw [hxw'] at h3
        cases h3
      · exact h2
    have hx2 : x ∈ (s.dropWhile isWS).reverse := by simpa using hx1
    have hne := dropWhile_ne_of_mem _ x hx2 hxw'
    have hnil : ((s.dropWhile isWS).reverse).dropWhile isWS = [] :=
      List.reverse_eq_nil_iff.mp (by simpa [jsTrim] using h)
    exact hne hnil
  · exact jsTrim_all_ws s

/-! ## Escaping facts -/

/-- The per-character view of `escapeXML`. -/
def escChar (c : Char) : Str :=
  if c = '&' then str "&amp;"
  else if c = '<' then str "&lt;"
  else if c = '>' then str "&gt;"
  else if c = '"' then str "&quot;"
  else if c = apos then str "&apos;"
  else [c]

theorem replaceAll_append (c : Char) (r s t : Str) :
    replaceAll c r (s ++ t) = replaceAll c r s ++ replaceAll c r t := by
  induction s with
  | nil => rfl
  | cons x s ih => simp [replaceAll, ih]

theorem escapeXML_append (s t : Str) :
    escapeXML (s ++ t) = escapeXML s ++ escapeXML t := by
  simp [escapeXML, replaceAll_append]

theorem escapeXML_nil : escapeXML [] = [] := rfl

theorem escapeXML_single (c : Char) : escapeXML [c] = escChar c := by
  by_cases h1 : c = '&'
  · subst h1; rfl
  · by_cases h2 : c = '<'
    · subst h2; rfl
    · by_cases h3 : c = '>'
      · subst h3; rfl
      · by_cases h4 : c = '"'
        · subst h4; rfl
        · by_cases h5 : c = apos
          · subst h5; rfl
          · simp [escapeXML, replaceAll, escChar, h1, h2, h3, h4, h5]

theorem escapeXML_cons (c : Char) (s : Str) :
    escapeXML (c :: s) = escChar c ++ escapeXML s := by
  have h : (c :: s) = [c] ++ s := rfl
  rw [h, escapeXML_append, escapeXML_single]

/-! ## Character class facts -/

theorem isWS_spec (c : Char) (h : isWS c = true) :
    c = ' ' ∨ c = '\t' ∨ c = '\r' ∨ c = '\n' := by
  simpa [isWS, or_assoc] using h

theorem ws_ne_lt (c : Char) (h : isWS c = true) : ¬(c = '<') := by
  rcases isWS_spec c h with rfl | rfl | rfl | rfl <;> decide

theorem ws_ne_amp (c : Char) (h : isWS c = true) : ¬(c = '&') := by
  rcases isWS_spec c h with rfl | rfl | rfl | rfl <;> decide

theorem nameStart_not_ws (c : Char) (h : isNameStart c = true) : isWS c = false := by
  by_contra hw
  have hw' : isWS c = true := by simpa using hw
  rcases isWS_spec c hw' with rfl | rfl | rfl | rfl <;> exact absurd h (by decide)

theorem nameStart_ne (c d : Char) (h : isNameStart c = true)
    (hd : isNameStart d = false) : ¬(c = d) := by
  intro he
  rw [he, hd] at h
  cases h

/-- A well-formed XML name over the model's alphabet. -/
def validNameB : Str → Bool
  | [] => false
  | c :: rest => isNameStart c && rest.all isNameChar


/-! ## Parser composition facts -/

set_option maxHeartbeats 2000000 in
/-- Step equation of `parseText` for a head character that is neither `<`
nor `&`. -/
theorem parseText_cons_other (c : Char) (s : Str) (h1 : ¬(c = '<')) (h2 : ¬(c = '&')) :
    parseText (c :: s) = (parseText s).map (fun p => (c :: p.1, p.2)) := by
  rw [parseText.eq_7 c s (fun _ hc _ => h2 hc) (fun _ hc _ => h2 hc) (fun _ hc _ => h2 hc)
    (fun _ hc _ => h2 hc) (fun _ hc _ => h2 hc), if_neg h1, if_neg h2]

theorem parseText_lt (s : Str) : parseText ('<' :: s) = some ([], '<' :: s) := by
  rw [parseText.eq_7 '<' s (fun _ hc _ => absurd hc (by decide))
    (fun _ hc _ => absurd hc (by decide)) (fun _ hc _ => absurd hc (by decide))
    (fun _ hc _ => absurd hc (by decide)) (fun _ hc _ => absurd hc (by decide)),
    if_pos rfl]

theorem parseText_amp (r : Str) :
    parseText ('&' :: 'a' :: 'm' :: 'p' :: ';' :: r)
      = (parseText r).map (fun p => ('&' :: p.1, p.2)) := rfl

theorem parseText_ltEnt (r : Str) :
    parseText ('&' :: 'l' :: 't' :: ';' :: r)
      = (parseText r).map (fun p => ('<' :: p.1, p.2)) := rfl

theorem parseText_gtEnt (r : Str) :
    parseText ('&' :: 'g' :: 't' :: ';' :: r)
      = (parseText r).map (fun p => ('>' :: p.1, p.2)) := rfl

theorem parseText_quotEnt (r : Str) :
    parseText ('&' :: 'q' :: 'u' :: 'o' :: 't' :: ';' :: r)
      = (parseText r).map (fun p => ('"' :: p.1, p.2)) := rfl

theorem parseText_aposEnt (r : Str) :
    parseText ('&' :: 'a' :: 'p' :: 'o' :: 's' :: ';' :: r)
      = (parseText r).map (fun p => (apos :: p.1, p.2)) := rfl

theorem parseText_escape (t z u r : Str) (h : parseText z = some (u, r)) :
    parseText (escapeXML t ++ z) = some (t ++ u, r) := by
  induction t with
  | nil => simpa [escapeXML_nil] using h
  | cons c t ih =>
    rw [escapeXML_cons]
    by_cases h1 : c = '&'
    · subst h1
      show parseText ('&' :: 'a' :: 'm' :: 'p' :: ';' :: (escapeXML t ++ z)) = _
      rw [parseText_amp, ih]
      simp
    · by_cases h2 : c = '<'
      · subst h2
        show parseText ('&' :: 'l' :: 't' :: ';' :: (escapeXML t ++ z)) = _
        rw [parseText_ltEnt, ih]
        simp
      · by_cases h3 : c = '>'
        · subst h3
          show parseText ('&' :: 'g' :: 't' :: ';' :: (escapeXML t ++ z)) = _
          rw [parseText_gtEnt, ih]
          simp
        · by_cases h4 : c = '"'
          · subst h4
            show parseText ('&' :: 'q' :: 'u' :: 'o' :: 't' :: ';' :: (escapeXML t ++ z)) = _
            rw [parseText_quotEnt, ih]
            simp
          · by_cases h5 : c = apos
            · subst h5
              show parseText ('&' :: 'a' :: 'p' :: 'o' :: 's' :: ';' :: (escapeXML t ++ z)) = _
              rw [parseText_aposEnt, ih]
              simp
            · have he : escChar c = [c] := by simp [escChar, h1, h2, h3, h4, h5]
              rw [he]
              show parseText (c :: (escapeXML t ++ z)) = _
              rw [parseText_cons_other c _ h2 h1, ih]
              simp

theorem parseText_ws (w r : Str) (hw : w.all isWS = true) :
    parseText (w ++ '<' :: r) = some (w, '<' :: r) := by
  induction w with
  | nil => simpa using parseText_lt r
  | cons c w ih =>
    simp only [List.all_cons, Bool.and_eq_true] at hw
    rw [List.cons_append, parseText_cons_other c _ (ws_ne_lt c hw.1) (ws_ne_amp c hw.1),
      ih hw.2]
    simp

set_option maxHeartbeats 2000000 in
/-- Step equation of `parseAttrValue` for a head character that is none of
`<`, `&`, the closing quote. -/
theorem parseAttrValue_cons_other (q c : Char) (s : Str)
    (h1 : ¬(c = '<')) (h2 : ¬(c = '&')) (h3 : ¬(c = q)) :
    parseAttrValue q (c :: s) = (parseAttrValue q s).map (fun p => (c :: p.1, p.2)) := by
  rw [parseAttrValue.eq_7 q c s (fun _ hc _ => h2 hc) (fun _ hc _ => h2 hc)
    (fun _ hc _ => h2 hc) (fun _ hc _ => h2 hc) (fun _ hc _ => h2 hc),
    if_neg h1, if_neg h2, if_neg h3]

theorem parseAttrValue_quote_end (s : Str) :
    parseAttrValue '"' ('"' :: s) = some ([], s) := by
  rw [parseAttrValue.eq_7 '"' '"' s (fun _ hc _ => absurd hc (by decide))
    (fun _ hc _ => absurd hc (by decide)) (fun _ hc _ => absurd hc (by decide))
    (fun _ hc _ => absurd hc (by decide)) (fun _ hc _ => absurd hc (by decide)),
    if_neg (by decide), if_neg (by decide), if_pos rfl]

theorem parseAttrValue_amp (q : Char) (r : Str) :
    parseAttrValue q ('&' :: 'a' :: 'm' :: 'p' :: ';' :: r)
      = (parseAttrValue q r).map (fun p => ('&' :: p.1, p.2)) := rfl

theorem parseAttrValue_ltEnt (q : Char) (r : Str) :
    parseAttrValue q ('&' :: 'l' :: 't' :: ';' :: r)
      = (parseAttrValue q r).map (fun p => ('<' :: p.1, p.2)) := rfl

theorem parseAttrValue_gtEnt (q : Char) (r : Str) :
    parseAttrValue q ('&' :: 'g' :: 't' :: ';' :: r)
      = (parseAttrValue q r).map (fun p => ('>' :: p.1, p.2)) := rfl

theorem parseAttrValue_quotEnt (q : Char) (r : Str) :
    parseAttrValue q ('&' :: 'q' :: 'u' :: 'o' :: 't' :: ';' :: r)
      = (parseAttrValue q r).map (fun p => ('"' :: p.1, p.2)) := rfl

theorem parseAttrValue_aposEnt (q : Char) (r : Str) :
    parseAttrValue q ('&' :: 'a' :: 'p' :: 'o' :: 's' :: ';' :: r)
      = (parseAttrValue q r).map (fun p => (apos :: p.1, p.2)) := rfl

theorem parseAttrValue_escape (t z u r : Str)
    (h : parseAttrValue '"' z = some (u, r)) :
    parseAttrValue '"' (escapeXML t ++ z) = some (t ++ u, r) := by
  induction t with
  | nil => simpa [escapeXML_nil] using h
  | cons c t ih =>
    rw [escapeXML_cons]
    by_cases h1 : c = '&'
    · subst h1
      show parseAttrValue '"' ('&' :: 'a' :: 'm' :: 'p' :: ';' :: (escapeXML t ++ z)) = _
      rw [parseAttrValue_amp, ih]
      simp
    · by_cases h2 : c = '<'
      · subst h2
        show parseAttrValue '"' ('&' :: 'l' :: 't' :: ';' :: (escapeXML t ++ z)) = _
        rw [parseAttrValue_ltEnt, ih]
        simp
      · by_cases h3 : c = '>'
        · subst h3
          show parseAttrValue '"' ('&' :: 'g' :: 't' :: ';' :: (escapeXML t ++ z)) = _
          rw [parseAttrValue_gtEnt, ih]
          simp
        · by_cases h4 : c = '"'
          · subst h4
            show parseAttrValue '"' ('&' :: 'q' :: 'u' :: 'o' :: 't' :: ';' :: (escapeXML t ++ z)) = _
            rw [parseAttrValue_quotEnt, ih]
            simp
          · by_cases h5 : c = apos
            · subst h5
              show parseAttrValue '"' ('&' :: 'a' :: 'p' :: 'o' :: 's' :: ';' :: (escapeXML t ++ z)) = _
              rw [parseAttrValue_aposEnt, ih]
              simp
            · have he : escChar c = [c] := by simp [escChar, h1, h2, h3, h4, h5]
              rw [he]
              show parseAttrValue '"' (c :: (escapeXML t ++ z)) = _
              rw [parseAttrValue_cons_other '"' c _ h2 h1 h4, ih]
              simp

theorem parseName_append (n r : Str) (hn : validNameB n = true)
    (hr : ∀ c, r.head? = some c → isNameChar c = false) :
    parseName (n ++ r) = some (n, r) := by
  cases n with
  | nil => simp [validNameB] at hn
  | cons c t =>
    simp only [validNameB, Bool.and_eq_true] at hn
    rw [List.cons_append]
    have h1 : r.takeWhile isNameChar = [] := by
      cases r with
      | nil => rfl
      | cons x r' => simp [List.takeWhile_cons, hr x rfl]
    have h2 : r.dropWhile isNameChar = r := dropWhile_of_head_false r hr
    simp [parseName, hn.1, takeWhile_append_all t r hn.2,
      dropWhile_append_all t r hn.2, h1, h2]

theorem skipWS_cons_not (c : Char) (s : Str) (h : isWS c = false) :
    skipWS (c :: s) = c :: s := by
  simp [skipWS, List.dropWhile_cons, h]

theorem parseAttrs_attrsStr (A : List XMLAttribute) (c : Char) (r : Str) (f : Nat)
    (hA : A.all (fun a => validNameB a.name) = true)
    (hf : A.length + 1 ≤ f)
    (hc : c = '/' ∨ c = '>') :
    parseAttrs f (attrsStr A ++ c :: r)
      = some (A.map (fun a => (a.name, a.value)), c :: r) := by
  have hcws : isWS c = false := by rcases hc with rfl | rfl <;> decide
  induction A generalizing f with
  | nil =>
    obtain ⟨f', rfl⟩ : ∃ f', f = f' + 1 := ⟨f - 1, by omega⟩
    rw [attrsStr]
    rw [List.nil_append, parseAttrs.eq_2, skipWS_cons_not c r hcws]
    rcases hc with rfl | rfl <;> simp
  | cons a A ih =>
    obtain ⟨f', rfl⟩ : ∃ f', f = f' + 1 := ⟨f - 1, by omega⟩
    simp only [List.all_cons, Bool.and_eq_true] at hA
    obtain ⟨n0, t0, hname⟩ : ∃ n0 t0, a.name = n0 :: t0 := by
      cases hn : a.name with
      | nil => rw [hn] at hA; exact absurd hA.1 (by simp [validNameB])
      | cons x y => exact ⟨x, y, rfl⟩
    have hvn : validNameB (n0 :: t0) = true := hname ▸ hA.1
    have hstart : isNameStart n0 = true := by
      simp only [validNameB, Bool.and_eq_true] at hvn
      exact hvn.1
    have hn0ws : isWS n0 = false := nameStart_not_ws n0 hstart
    have hn0slash : ¬(n0 = '/') := nameStart_ne n0 '/' hstart (by decide)
    have hn0gt : ¬(n0 = '>') := nameStart_ne n0 '>' hstart (by decide)
    rw [attrsStr, List.map_cons, hname]
    have hshape : (' ' :: ((n0 :: t0) ++ '=' :: '"' :: (escapeXML a.value ++ ['"'])) ++ attrsStr A) ++ c :: r
        = ' ' :: n0 :: (t0 ++ ('=' :: '"' :: (escapeXML a.value ++ '"' :: (attrsStr A ++ c :: r)))) := by
      simp
    rw [hshape, parseAttrs.eq_2]
    have hskip : skipWS (' ' :: n0 :: (t0 ++ ('=' :: '"' :: (escapeXML a.value ++ '"' :: (attrsStr A ++ c :: r)))))
        = n0 :: (t0 ++ ('=' :: '"' :: (escapeXML a.value ++ '"' :: (attrsStr A ++ c :: r)))) := by
      simp [skipWS, List.dropWhile_cons, hn0ws, show isWS ' ' = true from by decide]
    rw [hskip]
    have hpn : parseName (n0 :: (t0 ++ ('=' :: '"' :: (escapeXML a.value ++ '"' :: (attrsStr A ++ c :: r)))))
        = some (n0 :: t0, '=' :: '"' :: (escapeXML a.value ++ '"' :: (attrsStr A ++ c :: r))) := by
      have h := parseName_append (n0 :: t0)
        ('=' :: '"' :: (escapeXML a.value ++ '"' :: (attrsStr A ++ c :: r))) hvn
        (by intro x hx; simp at hx; subst hx; decide)
      simpa using h
    have hval : parseAttrValue '"' (escapeXML a.value ++ '"' :: (attrsStr A ++ c :: r))
        = some (a.value, attrsStr A ++ c :: r) := by
      have h := parseAttrValue_escape a.value ('"' :: (attrsStr A ++ c :: r)) [] (attrsStr A ++ c :: r)
        (parseAttrValue_quote_end _)
      simpa using h
    have hih : parseAttrs f' (attrsStr A ++ c :: r)
        = some (A.map (fun a => (a.name, a.value)), c :: r) :=
      ih f' hA.2 (by simpa using hf)
    simp [hn0slash, hn0gt, hpn, hval, hih, skipWS, List.dropWhile_cons,
      show isWS '=' = false from by decide, show isWS '"' = false from by decide]

/-! ## Round-trip infrastructure -/

/-- `serializeXML` without its leading indentation. -/
def coreStr : XMLNode → Nat → Str
  | ⟨_, name, attributes, children, content⟩, level =>
    let xmlOpen := '<' :: (name ++ attrsStr attributes)
    if !(children.length > 0) && !(hasContentB content) then xmlOpen ++ str "/>"
    else
      (xmlOpen ++ ['>'])
      ++ (if hasContentB content then escapeXML (content.getD []) else [])
      ++ (if children.length > 0 then
            str "\r\n" ++ serializeChildren children (level + 1) ++ indentStr level
          else [])
      ++ ('<' :: '/' :: (name ++ ['>']))

theorem serializeXML_eq_core (T : XMLNode) (l : Nat) :
    serializeXML T l = indentStr l ++ coreStr T l := by
  cases T with
  | mk id name attributes children content =>
    by_cases h : (!(children.length > 0) && !(hasContentB content)) = true
    · simp [serializeXML, coreStr, h]
    · simp only [serializeXML, coreStr]
      rw [if_neg h, if_neg h]
      simp [List.append_assoc]

mutual
/-- The DOM tree that re-parsing `serializeXML T level` produces: the
element itself plus the whitespace text nodes created by the pretty
indentation. -/
def domOf : XMLNode → Nat → Dom
  | ⟨_, name, attributes, children, content⟩, level =>
    .elem name (attributes.map fun a => (a.name, a.value))
      (match children with
       | [] => if hasContentB content then [.text (content.getD [])] else []
       | _ :: _ =>
         .text ((if hasContentB content then content.getD [] else []) ++ str "\r\n"
             ++ indentStr (level + 1)) :: domSeq children level)

/-- The DOM nodes arising from a serialized child sequence: each child's
element alternating with the CRLF-and-indent whitespace runs, ending with
the run that precedes the parent's closing tag. -/
def domSeq : List XMLNode → Nat → List Dom
  | [], _ => []
  | [c], level => [domOf c (level + 1), .text (str "\r\n" ++ indentStr level)]
  | c :: cs, level =>
    domOf c (level + 1) :: .text (str "\r\n" ++ indentStr (level + 1)) :: domSeq cs level
end

/-- The serialized child sequence as seen right after the first child's
opening `<`, mirroring `domSeq`. -/
def seqStr : List XMLNode → Nat → Str
  | [], _ => []
  | [c], level => coreStr c (level + 1) ++ str "\r\n" ++ indentStr level
  | c :: cs, level =>
    coreStr c (level + 1) ++ str "\r\n" ++ indentStr (level + 1) ++ seqStr cs level

/-- Content restriction satisfied by every parsed node: absent, or
non-empty and invariant under trimming. -/
def wfContent : Option Str → Bool
  | none => true
  | some c => !c.isEmpty && decide (jsTrim c = c)

mutual
/-- Well-formedness of a tree in the model: names are valid XML names, no
element is named `parsererror`, and content is absent or trimmed and
non-empty.  Every root that `parseXML` returns satisfies this. -/
def wfNode : XMLNode → Bool
  | ⟨_, name, attributes, children, content⟩ =>
    validNameB name && !(decide (name = str "parsererror"))
      && attributes.all (fun a => validNameB a.name)
      && wfContent content && wfNodes children

/-- `wfNode` for every member of a child list. -/
def wfNodes : List XMLNode → Bool
  | [] => true
  | c :: cs => wfNode c && wfNodes cs
end

mutual
/-- Enough `parseElement` fuel to parse the serialization of a tree. -/
def needFuel : XMLNode → Nat
  | ⟨_, _, _, children, _⟩ => needFuelL children + 2

/-- Enough `parseContent` fuel to parse a serialized child sequence. -/
def needFuelL : List XMLNode → Nat
  | [] => 2
  | c :: cs => needFuel c + needFuelL cs + 3
end

theorem indentStr_succ (l : Nat) : indentStr (l + 1) = str "  " ++ indentStr l := by
  simp [indentStr, List.replicate_succ]

theorem indentStr_ws (l : Nat) : (indentStr l).all isWS = true := by
  induction l with
  | zero => rfl
  | succ l ih => rw [indentStr_succ]; simp [ih]; decide

theorem crlf_indent_ws (l : Nat) : (str "\r\n" ++ indentStr l).all isWS = true := by
  simp [indentStr_ws l]; decide

theorem attrsStr_length_ge (A : List XMLAttribute) : A.length ≤ (attrsStr A).length := by
  induction A with
  | nil => simp [attrsStr]
  | cons a A ih => simp [attrsStr]; omega

theorem serializeChildren_decomp (c : XMLNode) (cs : List XMLNode) (l : Nat) :
    serializeChildren (c :: cs) (l + 1) ++ indentStr l
      = indentStr (l + 1) ++ seqStr (c :: cs) l := by
  induction cs generalizing c with
  | nil =>
    rw [serializeChildren, serializeChildren, seqStr, serializeXML_eq_core]
    simp
  | cons c2 cs ih =>
    rw [serializeChildren, serializeXML_eq_core,
      show seqStr (c :: c2 :: cs) l
          = coreStr c (l + 1) ++ str "\r\n" ++ indentStr (l + 1) ++ seqStr (c2 :: cs) l
        from rfl]
    have h := ih c2
    simp only [List.append_assoc] at h ⊢
    rw [h]

theorem parseContent_stop (f : Nat) (r : Str) :
    parseContent (f + 1) ('<' :: '/' :: r) = some ([], '<' :: '/' :: r) := by
  rw [parseContent.eq_4]
  simp

theorem parseContent_text_step (f : Nat) (s txt z : Str) (items : List Dom) (r' : Str)
    (hpt : parseText s = some (txt, z)) (hne : txt ≠ [])
    (hcont : parseContent f z = some (items, r')) :
    parseContent (f + 1) s = some (.text txt :: items, r') := by
  cases s with
  | nil =>
    rw [show parseText [] = some ([], []) from rfl] at hpt
    simp at hpt
    exact absurd hpt.1 hne
  | cons c s' =>
    have hc : ¬(c = '<') := by
      intro hq
      subst hq
      rw [parseText_lt] at hpt
      simp at hpt
      exact hne hpt.1
    cases s' with
    | nil =>
      rw [parseContent.eq_3, if_neg hc, hpt]
      simp [hcont]
    | cons c2 s'' =>
      rw [parseContent.eq_4, if_neg hc, hpt]
      simp [hcont]

theorem parseContent_single_text (f : Nat) (s txt r' : Str) (hf : 2 ≤ f)
    (hpt : parseText s = some (txt, '<' :: '/' :: r')) (hne : txt ≠ []) :
    parseContent f s = some ([.text txt], '<' :: '/' :: r') := by
  obtain ⟨f1, rfl⟩ : ∃ f1, f = f1 + 1 + 1 := ⟨f - 2, by omega⟩
  exact parseContent_text_step (f1 + 1) s txt _ [] _ hpt hne (parseContent_stop f1 r')

theorem coreStr_shape (T : XMLNode) (l : Nat) :
    ∃ y, coreStr T l = '<' :: (T.name ++ y) := by
  cases T with
  | mk id name attributes children content =>
    by_cases h : (!(decide (children.length > 0)) && !(hasContentB content)) = true
    · refine ⟨attrsStr attributes ++ str "/>", ?_⟩
      simp only [coreStr]
      rw [if_pos h]
      simp
    · refine ⟨attrsStr attributes ++ '>' ::
        ((if hasContentB content then escapeXML (content.getD []) else [])
          ++ ((if children.length > 0 then
                str "\r\n" ++ serializeChildren children (l + 1) ++ indentStr l
              else []) ++ ('<' :: '/' :: (name ++ ['>'])))), ?_⟩
      simp only [coreStr]
      rw [if_neg h]
      simp [List.append_assoc]

theorem attrsStr_head_not_nameChar (A : List XMLAttribute) (c : Char) (z : Str)
    (hc : isNameChar c = false) :
    ∀ x, (attrsStr A ++ c :: z).head? = some x → isNameChar x = false := by
  cases A with
  | nil =>
    intro x hx
    simp [attrsStr] at hx
    rw [← hx]
    exact hc
  | cons a A =>
    intro x hx
    rw [attrsStr] at hx
    simp at hx
    rw [← hx]
    decide

theorem seqStr_nil_eq (c : XMLNode) (l : Nat) :
    seqStr [c] l = coreStr c (l + 1) ++ (str "\r\n" ++ indentStr l) := by
  rw [show seqStr [c] l = coreStr c (l + 1) ++ str "\r\n" ++ indentStr l from rfl]
  simp

theorem seqStr_cons_eq (c c2 : XMLNode) (cs : List XMLNode) (l : Nat) :
    seqStr (c :: c2 :: cs) l
      = coreStr c (l + 1) ++ ((str "\r\n" ++ indentStr (l + 1)) ++ seqStr (c2 :: cs) l) := by
  rw [show seqStr (c :: c2 :: cs) l
      = coreStr c (l + 1) ++ str "\r\n" ++ indentStr (l + 1) ++ seqStr (c2 :: cs) l from rfl]
  simp

theorem seqStr_head_lt (c : XMLNode) (cs : List XMLNode) (l : Nat) (X : Str) :
    ∃ Z, seqStr (c :: cs) l ++ X = '<' :: Z := by
  obtain ⟨y, hy⟩ := coreStr_shape c (l + 1)
  cases cs with
  | nil =>
    refine ⟨(c.name ++ y) ++ ((str "\r\n" ++ indentStr l) ++ X), ?_⟩
    rw [seqStr_nil_eq, hy]
    simp
  | cons c2 cs =>
    refine ⟨(c.name ++ y) ++ (((str "\r\n" ++ indentStr (l + 1)) ++ seqStr (c2 :: cs) l) ++ X), ?_⟩
    rw [seqStr_cons_eq, hy]
    simp

theorem needFuel_ge_two (T : XMLNode) : 2 ≤ needFuel T := by
  cases T with
  | mk id name attributes children content => rw [needFuel]; omega

theorem needFuelL_cons (c : XMLNode) (cs : List XMLNode) :
    needFuelL (c :: cs) = needFuel c + needFuelL cs + 3 := by
  rw [needFuelL]

theorem crlf_indent_ne (l : Nat) : str "\r\n" ++ indentStr l ≠ [] := by
  rw [show str "\r\n" = ['\r', '\n'] from rfl]
  simp

theorem append_crlf_indent_ne (t0 : Str) (l : Nat) :
    t0 ++ (str "\r\n" ++ indentStr l) ≠ [] := by
  rw [show str "\r\n" = ['\r', '\n'] from rfl]
  simp

theorem wfNode_name_head (T : XMLNode) (h : wfNode T = true) :
    ∃ n0 t0, T.name = n0 :: t0 ∧ isNameStart n0 = true := by
  cases T with
  | mk id name attributes children content =>
    simp only [wfNode, Bool.and_eq_true] at h
    obtain ⟨⟨⟨⟨hvn, _⟩, _⟩, _⟩, _⟩ := h
    cases hn : name with
    | nil => rw [hn] at hvn; exact absurd hvn (by simp [validNameB])
    | cons x y =>
      rw [hn] at hvn
      simp only [validNameB, Bool.and_eq_true] at hvn
      exact ⟨x, y, rfl, hvn.1⟩

theorem serializeChildren_decomp2 (c : XMLNode) (cs : List XMLNode) (l : Nat) (X : Str) :
    serializeChildren (c :: cs) (l + 1) ++ (indentStr l ++ X)
      = indentStr (l + 1) ++ (seqStr (c :: cs) l ++ X) := by
  have h := serializeChildren_decomp c cs l
  calc serializeChildren (c :: cs) (l + 1) ++ (indentStr l ++ X)
      = (serializeChildren (c :: cs) (l + 1) ++ indentStr l) ++ X := by simp
    _ = (indentStr (l + 1) ++ seqStr (c :: cs) l) ++ X := by rw [h]
    _ = indentStr (l + 1) ++ (seqStr (c :: cs) l ++ X) := by simp

mutual
theorem parseElement_core : ∀ (T : XMLNode) (l fuel : Nat) (rest : Str),
    wfNode T = true → needFuel T ≤ fuel →
    parseElement fuel (coreStr T l ++ rest) = some (domOf T l, rest)
  | ⟨id, name, attributes, children, content⟩, l, fuel, rest, hwf, hfuel => by
    obtain ⟨f, rfl⟩ : ∃ f, fuel = f + 1 := ⟨fuel - 1, by rw [needFuel] at hfuel; omega⟩
    rw [needFuel] at hfuel
    have hwf' := hwf
    simp only [wfNode, Bool.and_eq_true] at hwf'
    obtain ⟨⟨⟨⟨hvn, hnpe⟩, hattrs⟩, hcont⟩, hkids⟩ := hwf'
    have hpn2 : parseName (name ++ '>' :: rest) = some (name, '>' :: rest) :=
      parseName_append name _ hvn (by intro x hx; simp at hx; subst hx; decide)
    have hsw : skipWS ('>' :: rest) = '>' :: rest := skipWS_cons_not '>' rest (by decide)
    cases children with
    | nil =>
      cases content with
      | none =>
        have hcore : coreStr ⟨id, name, attributes, [], none⟩ l
            = '<' :: (name ++ (attrsStr attributes ++ str "/>")) := by
          simp [coreStr, hasContentB]
        rw [hcore]
        have hshape : ('<' :: (name ++ (attrsStr attributes ++ str "/>"))) ++ rest
            = '<' :: (name ++ (attrsStr attributes ++ '/' :: '>' :: rest)) := by
          simp [str]
        rw [hshape, parseElement.eq_2]
        have hpn : parseName (name ++ (attrsStr attributes ++ '/' :: '>' :: rest))
            = some (name, attrsStr attributes ++ '/' :: '>' :: rest) :=
          parseName_append _ _ hvn
            (attrsStr_head_not_nameChar attributes '/' ('>' :: rest) (by decide))
        have hpa : parseAttrs ((attrsStr attributes ++ '/' :: '>' :: rest).length + 1)
              (attrsStr attributes ++ '/' :: '>' :: rest)
            = some (attributes.map (fun a => (a.name, a.value)), '/' :: '>' :: rest) :=
          parseAttrs_attrsStr attributes '/' ('>' :: rest) _ hattrs
            (by have := attrsStr_length_ge attributes; simp; omega) (Or.inl rfl)
        simp only [hpn, hpa, domOf, hasContentB]
        simp
      | some t =>
        simp only [wfContent, Bool.and_eq_true] at hcont
        have htne : t ≠ [] := by simpa using hcont.1
        have hhc : hasContentB (some t) = true := by
          cases t with
          | nil => exact absurd rfl htne
          | cons x xs => simp [hasContentB]
        have hcore : coreStr ⟨id, name, attributes, [], some t⟩ l
            = '<' :: (name ++ (attrsStr attributes
              ++ '>' :: (escapeXML t ++ ('<' :: '/' :: (name ++ ['>']))))) := by
          simp only [coreStr]
          rw [if_neg (by simp [hhc])]
          simp [hhc, List.append_assoc]
        rw [hcore]
        have hshape : ('<' :: (name ++ (attrsStr attributes
              ++ '>' :: (escapeXML t ++ ('<' :: '/' :: (name ++ ['>'])))))) ++ rest
            = '<' :: (name ++ (attrsStr attributes
              ++ '>' :: (escapeXML t ++ ('<' :: '/' :: (name ++ '>' :: rest))))) := by
          simp
        rw [hshape, parseElement.eq_2]
        have hpn : parseName (name ++ (attrsStr attributes
              ++ '>' :: (escapeXML t ++ ('<' :: '/' :: (name ++ '>' :: rest)))))
            = some (name, attrsStr attributes
              ++ '>' :: (escapeXML t ++ ('<' :: '/' :: (name ++ '>' :: rest)))) :=
          parseName_append _ _ hvn
            (attrsStr_head_not_nameChar attributes '>' _ (by decide))
        have hpa : parseAttrs
              ((attrsStr attributes
                  ++ '>' :: (escapeXML t ++ ('<' :: '/' :: (name ++ '>' :: rest)))).length + 1)
              (attrsStr attributes ++ '>' :: (escapeXML t ++ ('<' :: '/' :: (name ++ '>' :: rest))))
            = some (attributes.map (fun a => (a.name, a.value)),
                '>' :: (escapeXML t ++ ('<' :: '/' :: (name ++ '>' :: rest)))) :=
          parseAttrs_attrsStr attributes '>' _ _ hattrs
            (by have := attrsStr_length_ge attributes; simp; omega) (Or.inr rfl)
        have hptxt : parseText (escapeXML t ++ ('<' :: '/' :: (name ++ '>' :: rest)))
            = some (t, '<' :: '/' :: (name ++ '>' :: rest)) := by
          have h := parseText_escape t ('<' :: '/' :: (name ++ '>' :: rest)) []
            ('<' :: '/' :: (name ++ '>' :: rest)) (parseText_lt _)
          simpa using h
        have hf2 : needFuelL ([] : List XMLNode) = 2 := rfl
        have hpc : parseContent f (escapeXML t ++ ('<' :: '/' :: (name ++ '>' :: rest)))
            = some ([.text t], '<' :: '/' :: (name ++ '>' :: rest)) :=
          parseContent_single_text f _ t _ (by omega) hptxt htne
        have hlen : 0 < t.length := by
          cases t with
          | nil => exact absurd rfl htne
          | cons x xs => simp
        simp only [hpn, hpa, hpc, hpn2, hsw, domOf, hasContentB]
        simp [hlen]
    | cons c cs =>
      have hfL : needFuelL (c :: cs) + 2 ≤ f + 1 := hfuel
      obtain ⟨f1, rfl⟩ : ∃ f1, f = f1 + 1 := ⟨f - 1, by rw [needFuelL] at hfL; omega⟩
      have hesc : (if hasContentB content then escapeXML (content.getD []) else [])
          = escapeXML (if hasContentB content then content.getD [] else []) := by
        by_cases h : hasContentB content = true
        · simp [h]
        · simp [h, escapeXML_nil]
      set t0 : Str := if hasContentB content then content.getD [] else [] with ht0
      have hcore : coreStr ⟨id, name, attributes, c :: cs, content⟩ l ++ rest
          = '<' :: (name ++ (attrsStr attributes ++ '>' ::
              (escapeXML t0 ++ ((str "\r\n" ++ indentStr (l + 1)) ++
                (seqStr (c :: cs) l ++ ('<' :: '/' :: (name ++ '>' :: rest))))))) := by
        simp only [coreStr]
        rw [if_neg (by simp)]
        rw [hesc]
        have hd := serializeChildren_decomp2 c cs l ('<' :: '/' :: (name ++ '>' :: rest))
        simp only [List.append_assoc, List.cons_append, List.nil_append] at hd ⊢
        rw [← hd]
        simp [List.append_assoc]
      rw [hcore, parseElement.eq_2]
      have hpn : parseName (name ++ (attrsStr attributes ++ '>' ::
            (escapeXML t0 ++ ((str "\r\n" ++ indentStr (l + 1)) ++
              (seqStr (c :: cs) l ++ ('<' :: '/' :: (name ++ '>' :: rest)))))))
          = some (name, attrsStr attributes ++ '>' ::
              (escapeXML t0 ++ ((str "\r\n" ++ indentStr (l + 1)) ++
                (seqStr (c :: cs) l ++ ('<' :: '/' :: (name ++ '>' :: rest)))))) :=
        parseName_append _ _ hvn
          (attrsStr_head_not_nameChar attributes '>' _ (by decide))
      have hpa : parseAttrs
            ((attrsStr attributes ++ '>' ::
                (escapeXML t0 ++ ((str "\r\n" ++ indentStr (l + 1)) ++
                  (seqStr (c :: cs) l ++ ('<' :: '/' :: (name ++ '>' :: rest)))))).length + 1)
            (attrsStr attributes ++ '>' ::
              (escapeXML t0 ++ ((str "\r\n" ++ indentStr (l + 1)) ++
                (seqStr (c :: cs) l ++ ('<' :: '/' :: (name ++ '>' :: rest))))))
          = some (attributes.map (fun a => (a.name, a.value)),
              '>' :: (escapeXML t0 ++ ((str "\r\n" ++ indentStr (l + 1)) ++
                (seqStr (c :: cs) l ++ ('<' :: '/' :: (name ++ '>' :: rest)))))) :=
        parseAttrs_attrsStr attributes '>' _ _ hattrs
          (by have := attrsStr_length_ge attributes; simp; omega) (Or.inr rfl)
      obtain ⟨Z, hZ⟩ := seqStr_head_lt c cs l ('<' :: '/' :: (name ++ '>' :: rest))
      have hptxt : parseText (escapeXML t0 ++ ((str "\r\n" ++ indentStr (l + 1)) ++
            (seqStr (c :: cs) l ++ ('<' :: '/' :: (name ++ '>' :: rest)))))
          = some (t0 ++ (str "\r\n" ++ indentStr (l + 1)),
              seqStr (c :: cs) l ++ ('<' :: '/' :: (name ++ '>' :: rest))) := by
        rw [hZ]
        exact parseText_escape t0 _ _ _ (parseText_ws _ Z (crlf_indent_ws (l + 1)))
      have hseq : parseContent f1 (seqStr (c :: cs) l ++ '<' :: '/' :: (name ++ '>' :: rest))
          = some (domSeq (c :: cs) l, '<' :: '/' :: (name ++ '>' :: rest)) :=
        parseContent_seq (c :: cs) l f1 (name ++ '>' :: rest) hkids
          (by rw [needFuelL] at hfL ⊢; omega) (by simp)
      have hpc : parseContent (f1 + 1) (escapeXML t0 ++ ((str "\r\n" ++ indentStr (l + 1)) ++
            (seqStr (c :: cs) l ++ ('<' :: '/' :: (name ++ '>' :: rest)))))
          = some (.text (t0 ++ (str "\r\n" ++ indentStr (l + 1))) :: domSeq (c :: cs) l,
              '<' :: '/' :: (name ++ '>' :: rest)) :=
        parseContent_text_step f1 _ _ _ _ _ hptxt (append_crlf_indent_ne t0 (l + 1)) hseq
      simp only [hpn, hpa, hpc, hpn2, hsw, domOf]
      simp [ht0]

theorem parseContent_seq : ∀ (cs : List XMLNode) (l fuel : Nat) (rest : Str),
    wfNodes cs = true → needFuelL cs ≤ fuel → cs ≠ [] →
    parseContent fuel (seqStr cs l ++ '<' :: '/' :: rest)
      = some (domSeq cs l, '<' :: '/' :: rest)
  | [], _, _, _, _, _, hne => absurd rfl hne
  | [c], l, fuel, rest, hwf, hfuel, _ => by
    simp only [needFuelL] at hfuel
    simp only [wfNodes, Bool.and_eq_true] at hwf
    have hwfc : wfNode c = true := hwf.1
    obtain ⟨f, rfl⟩ : ∃ f, fuel = f + 1 :=
      ⟨fuel - 1, by have := needFuel_ge_two c; omega⟩
    obtain ⟨n0, t0n, hname, hstart⟩ := wfNode_name_head c hwfc
    obtain ⟨y, hy⟩ := coreStr_shape c (l + 1)
    have hslash : ¬(n0 = '/') := nameStart_ne n0 '/' hstart (by decide)
    have hbang : ¬(n0 = '!') := nameStart_ne n0 '!' hstart (by decide)
    rw [seqStr_nil_eq]
    have hin : (coreStr c (l + 1) ++ (str "\r\n" ++ indentStr l)) ++ '<' :: '/' :: rest
        = '<' :: n0 :: ((t0n ++ y) ++ ((str "\r\n" ++ indentStr l) ++ '<' :: '/' :: rest)) := by
      rw [hy, hname]
      simp
    rw [hin, parseContent.eq_4, if_pos rfl, if_neg hslash, if_neg hbang]
    have hback : ('<' :: n0 :: ((t0n ++ y) ++ ((str "\r\n" ++ indentStr l) ++ '<' :: '/' :: rest)))
        = coreStr c (l + 1) ++ ((str "\r\n" ++ indentStr l) ++ '<' :: '/' :: rest) := by
      rw [hy, hname]
      simp
    rw [hback]
    have hel := parseElement_core c (l + 1) f ((str "\r\n" ++ indentStr l) ++ '<' :: '/' :: rest)
      hwfc (by omega)
    have hpt : parseText ((str "\r\n" ++ indentStr l) ++ '<' :: '/' :: rest)
        = some (str "\r\n" ++ indentStr l, '<' :: '/' :: rest) :=
      parseText_ws _ ('/' :: rest) (crlf_indent_ws l)
    have hpc2 : parseContent f ((str "\r\n" ++ indentStr l) ++ '<' :: '/' :: rest)
        = some ([.text (str "\r\n" ++ indentStr l)], '<' :: '/' :: rest) :=
      parseContent_single_text f _ _ _ (by have := needFuel_ge_two c; omega) hpt
        (crlf_indent_ne l)
    simp only [hel, hpc2]
    rw [show domSeq [c] l = [domOf c (l + 1), .text (str "\r\n" ++ indentStr l)] from rfl]
  | c :: c2 :: cs, l, fuel, rest, hwf, hfuel, _ => by
    simp only [needFuelL] at hfuel
    simp only [wfNodes, Bool.and_eq_true] at hwf
    have hwfc : wfNode c = true := hwf.1
    have hwfrest : wfNodes (c2 :: cs) = true := by
      simp only [wfNodes, Bool.and_eq_true]
      exact hwf.2
    obtain ⟨f, rfl⟩ : ∃ f, fuel = f + 1 :=
      ⟨fuel - 1, by have := needFuel_ge_two c; omega⟩
    obtain ⟨f1, rfl⟩ : ∃ f1, f = f1 + 1 :=
      ⟨f - 1, by have := needFuel_ge_two c; have := needFuel_ge_two c2; omega⟩
    obtain ⟨n0, t0n, hname, hstart⟩ := wfNode_name_head c hwfc
    obtain ⟨y, hy⟩ := coreStr_shape c (l + 1)
    have hslash : ¬(n0 = '/') := nameStart_ne n0 '/' hstart (by decide)
    have hbang : ¬(n0 = '!') := nameStart_ne n0 '!' hstart (by decide)
    rw [seqStr_cons_eq]
    have hin : (coreStr c (l + 1) ++ ((str "\r\n" ++ indentStr (l + 1)) ++ seqStr (c2 :: cs) l))
          ++ '<' :: '/' :: rest
        = '<' :: n0 :: ((t0n ++ y) ++ (((str "\r\n" ++ indentStr (l + 1)) ++ seqStr (c2 :: cs) l)
          ++ '<' :: '/' :: rest)) := by
      rw [hy, hname]
      simp
    rw [hin, parseContent.eq_4, if_pos rfl, if_neg hslash, if_neg hbang]
    have hback : ('<' :: n0 :: ((t0n ++ y) ++ (((str "\r\n" ++ indentStr (l + 1))
            ++ seqStr (c2 :: cs) l) ++ '<' :: '/' :: rest)))
        = coreStr c (l + 1) ++ ((str "\r\n" ++ indentStr (l + 1))
            ++ (seqStr (c2 :: cs) l ++ '<' :: '/' :: rest)) := by
      rw [hy, hname]
      simp
    rw [hback]
    have hel := parseElement_core c (l + 1) (f1 + 1)
      ((str "\r\n" ++ indentStr (l + 1)) ++ (seqStr (c2 :: cs) l ++ '<' :: '/' :: rest))
      hwfc (by omega)
    obtain ⟨Z, hZ⟩ := seqStr_head_lt c2 cs l ('<' :: '/' :: rest)
    have hpt : parseText ((str "\r\n" ++ indentStr (l + 1))
          ++ (seqStr (c2 :: cs) l ++ '<' :: '/' :: rest))
        = some (str "\r\n" ++ indentStr (l + 1), seqStr (c2 :: cs) l ++ '<' :: '/' :: rest) := by
      rw [hZ]
      exact parseText_ws _ Z (crlf_indent_ws (l + 1))
    have hseq : parseContent f1 (seqStr (c2 :: cs) l ++ '<' :: '/' :: rest)
        = some (domSeq (c2 :: cs) l, '<' :: '/' :: rest) :=
      parseContent_seq (c2 :: cs) l f1 rest hwfrest
        (by simp only [needFuelL]; have := needFuel_ge_two c; omega) (by simp)
    have hpc2 : parseContent (f1 + 1) ((str "\r\n" ++ indentStr (l + 1))
          ++ (seqStr (c2 :: cs) l ++ '<' :: '/' :: rest))
        = some (.text (str "\r\n" ++ indentStr (l + 1)) :: domSeq (c2 :: cs) l,
            '<' :: '/' :: rest) :=
      parseContent_text_step f1 _ _ _ _ _ hpt (crlf_indent_ne (l + 1)) hseq
    simp only [hel, hpc2]
    rw [show domSeq (c :: c2 :: cs) l
        = domOf c (l + 1) :: .text (str "\r\n" ++ indentStr (l + 1)) :: domSeq (c2 :: cs) l
      from rfl]
end

mutual
/-- Erase the generated ids, the only parse-dependent component of a
converted tree. -/
def stripIds : XMLNode → XMLNode
  | ⟨_, name, attributes, children, content⟩ => ⟨0, name, attributes, stripIdsL children, content⟩

/-- `stripIds` on every member of a child list. -/
def stripIdsL : List XMLNode → List XMLNode
  | [] => []
  | c :: cs => stripIds c :: stripIdsL cs
end

theorem attrs_pairs_roundtrip (A : List XMLAttribute) :
    (A.map (fun a => (a.name, a.value))).map (fun p => XMLAttribute.mk p.1 p.2) = A := by
  induction A with
  | nil => rfl
  | cons a A ih =>
    cases a with
    | mk n v => simp [ih]

theorem attrs_pairs_roundtrip2 (A : List XMLAttribute) :
    A.map ((fun p => XMLAttribute.mk p.1 p.2) ∘ (fun a => (a.name, a.value))) = A := by
  rw [show ((fun p => XMLAttribute.mk p.1 p.2) ∘ (fun a : XMLAttribute => (a.name, a.value)))
      = id from rfl, List.map_id]

theorem convertChildren_ws_text (t : Str) (rest : List Dom) (k : Nat)
    (hws : t.all isWS = true) :
    convertChildren (.text t :: rest) k = convertChildren rest k := by
  rw [convertChildren]
  rw [jsTrim_all_ws t hws]
  simp

mutual
theorem convertDom_domOf : ∀ (T : XMLNode) (l k : Nat), wfNode T = true →
    stripIds (convertDom (domOf T l) k).1 = stripIds T
  | ⟨id, name, attributes, children, content⟩, l, k, hwf => by
    have hwf' := hwf
    simp only [wfNode, Bool.and_eq_true] at hwf'
    obtain ⟨⟨⟨⟨hvn, hnpe⟩, hattrs⟩, hcont⟩, hkids⟩ := hwf'
    cases children with
    | nil =>
      cases content with
      | none =>
        rw [show domOf ⟨id, name, attributes, [], none⟩ l
            = .elem name (attributes.map fun a => (a.name, a.value)) [] from by
          rw [domOf]; simp [hasContentB]]
        rw [convertDom, convertChildren]
        simp [mkConvertedNode, stripIds, stripIdsL, attrs_pairs_roundtrip,
          attrs_pairs_roundtrip2, jsTrim_nil]
      | some t =>
        simp only [wfContent, Bool.and_eq_true] at hcont
        have htne : t ≠ [] := by simpa using hcont.1
        have htrim : jsTrim t = t := by simpa using hcont.2
        have hhc : hasContentB (some t) = true := by
          cases t with
          | nil => exact absurd rfl htne
          | cons x xs => simp [hasContentB]
        rw [show domOf ⟨id, name, attributes, [], some t⟩ l
            = .elem name (attributes.map fun a => (a.name, a.value)) [.text t] from by
          rw [domOf]; simp [hhc]]
        rw [convertDom, convertChildren, convertChildren]
        have hne' : t.isEmpty = false := by
          cases t with
          | nil => exact absurd rfl htne
          | cons x xs => rfl
        have htsp : jsTrim (t ++ [' ']) = t := by
          rw [jsTrim_append_ws t [' '] (by decide), htrim]
        simp [mkConvertedNode, stripIds, stripIdsL, attrs_pairs_roundtrip,
          attrs_pairs_roundtrip2, htrim, hne', htsp, htne]
    | cons c cs =>
      have hkids' : wfNodes (c :: cs) = true := hkids
      set t0 : Str := if hasContentB content then content.getD [] else [] with ht0
      have hdom : domOf ⟨id, name, attributes, c :: cs, content⟩ l
          = .elem name (attributes.map fun a => (a.name, a.value))
              (.text (t0 ++ str "\r\n" ++ indentStr (l + 1)) :: domSeq (c :: cs) l) := by
        rw [ht0]
        rfl
      rw [hdom, convertDom, convertChildren]
      obtain ⟨hns, hcontent2, hcw⟩ := convertChildren_domSeq (c :: cs) l k hkids' (by simp)
      cases hcc : convertChildren (domSeq (c :: cs) l) k with
      | mk ns rest2 =>
        cases rest2 with
        | mk content2 k2 =>
          rw [hcc] at hns hcontent2
          simp only at hns hcontent2
          subst hcontent2
          -- the whitespace-or-content first text node
          have htrimtext : jsTrim (t0 ++ str "\r\n" ++ indentStr (l + 1)) = jsTrim t0 := by
            have h : (str "\r\n" ++ indentStr (l + 1)).all isWS = true := crlf_indent_ws (l + 1)
            calc jsTrim (t0 ++ str "\r\n" ++ indentStr (l + 1))
                = jsTrim (t0 ++ (str "\r\n" ++ indentStr (l + 1))) := by simp
              _ = jsTrim t0 := jsTrim_append_ws _ _ h
          cases hcb : hasContentB content with
          | false =>
            have ht0nil : t0 = [] := by rw [ht0, hcb]; rfl
            rw [htrimtext, ht0nil, jsTrim_nil]
            simp only [List.isEmpty_nil]
            cases content with
            | none =>
              simp [mkConvertedNode, stripIds, stripIdsL, attrs_pairs_roundtrip,
                attrs_pairs_roundtrip2, hns, jsTrim_nil]
            | some tc =>
              simp only [wfContent, Bool.and_eq_true] at hcont
              have : tc = [] := by
                cases tc with
                | nil => rfl
                | cons x xs => simp [hasContentB] at hcb
              subst this
              have : (!List.isEmpty ([] : Str)) = true := hcont.1
              simp at this
          | true =>
            obtain ⟨tc, rfl⟩ : ∃ tc, content = some tc := by
              cases content with
              | none => simp [hasContentB] at hcb
              | some tc => exact ⟨tc, rfl⟩
            simp only [wfContent, Bool.and_eq_true] at hcont
            have htne : tc ≠ [] := by simpa using hcont.1
            have htrim : jsTrim tc = tc := by simpa using hcont.2
            have ht0c : t0 = tc := by rw [ht0, hcb]; rfl
            have hne' : tc.isEmpty = false := by
              cases tc with
              | nil => exact absurd rfl htne
              | cons x xs => rfl
            have htsp : jsTrim (tc ++ [' ']) = tc := by
              rw [jsTrim_append_ws tc [' '] (by decide), htrim]
            rw [htrimtext, ht0c]
            simp [mkConvertedNode, stripIds, stripIdsL, attrs_pairs_roundtrip,
              attrs_pairs_roundtrip2, hns, htrim, hne', htsp, htne]

theorem convertChildren_domSeq : ∀ (cs : List XMLNode) (l k : Nat), wfNodes cs = true →
    cs ≠ [] →
    stripIdsL (convertChildren (domSeq cs l) k).1 = stripIdsL cs
      ∧ (convertChildren (domSeq cs l) k).2.1 = []
      ∧ True
  | [], _, _, _, hne => absurd rfl hne
  | [c], l, k, hwf, _ => by
    simp only [wfNodes, Bool.and_eq_true] at hwf
    have hwfc : wfNode c = true := hwf.1
    obtain ⟨n, a, ds, hdom⟩ : ∃ n a ds, domOf c (l + 1) = .elem n a ds := by
      cases c with
      | mk id name attributes children content => exact ⟨_, _, _, rfl⟩
    have hcd := convertDom_domOf c (l + 1) k hwfc
    rw [hdom] at hcd
    rw [show domSeq [c] l = [domOf c (l + 1), .text (str "\r\n" ++ indentStr l)] from rfl]
    rw [hdom, convertChildren]
    cases hx : convertDom (.elem n a ds) k with
    | mk node k1 =>
      rw [hx] at hcd
      simp only at hcd
      simp only [hx]
      rw [convertChildren_ws_text _ _ _ (crlf_indent_ws l), convertChildren]
      simp [stripIdsL, hcd]
  | c :: c2 :: cs, l, k, hwf, _ => by
    simp only [wfNodes, Bool.and_eq_true] at hwf
    have hwfc : wfNode c = true := hwf.1
    have hwfrest : wfNodes (c2 :: cs) = true := by
      simp only [wfNodes, Bool.and_eq_true]
      exact hwf.2
    obtain ⟨n, a, ds, hdom⟩ : ∃ n a ds, domOf c (l + 1) = .elem n a ds := by
      cases c with
      | mk id name attributes children content => exact ⟨_, _, _, rfl⟩
    have hcd := convertDom_domOf c (l + 1) k hwfc
    rw [hdom] at hcd
    rw [show domSeq (c :: c2 :: cs) l
        = domOf c (l + 1) :: .text (str "\r\n" ++ indentStr (l + 1)) :: domSeq (c2 :: cs) l
      from rfl]
    rw [hdom, convertChildren]
    cases hx : convertDom (.elem n a ds) k with
    | mk node k1 =>
      rw [hx] at hcd
      simp only at hcd
      simp only [hx]
      rw [convertChildren_ws_text _ _ _ (crlf_indent_ws (l + 1))]
      obtain ⟨hns, hc2, -⟩ := convertChildren_domSeq (c2 :: cs) l k1 hwfrest (by simp)
      cases hy : convertChildren (domSeq (c2 :: cs) l) k1 with
      | mk ns rest2 =>
        cases rest2 with
        | mk content2 k2 =>
          rw [hy] at hns hc2
          simp only at hns hc2
          subst hc2
          simp only [hy]
          simp [stripIdsL, hcd, hns]
end

theorem indentStr_length (l : Nat) : (indentStr l).length = 2 * l := by
  induction l with
  | zero => rfl
  | succ l ih => rw [indentStr_succ]; simp [ih, str]; omega

mutual
theorem needFuel_le_coreStr : ∀ (T : XMLNode) (l : Nat), wfNode T = true →
    needFuel T ≤ (coreStr T l).length
  | ⟨id, name, attributes, children, content⟩, l, hwf => by
    obtain ⟨n0, t0n, hname, -⟩ :=
      wfNode_name_head ⟨id, name, attributes, children, content⟩ hwf
    simp only at hname
    have hwf' := hwf
    simp only [wfNode, Bool.and_eq_true] at hwf'
    obtain ⟨⟨⟨⟨hvn, hnpe⟩, hattrs⟩, hcont⟩, hkids⟩ := hwf'
    rw [needFuel]
    cases children with
    | nil =>
      rw [show needFuelL ([] : List XMLNode) = 2 from rfl]
      by_cases hc : hasContentB content = true
      · have hcore : coreStr ⟨id, name, attributes, [], content⟩ l
            = '<' :: (name ++ (attrsStr attributes
              ++ '>' :: (escapeXML (content.getD []) ++ ('<' :: '/' :: (name ++ ['>']))))) := by
          simp only [coreStr]
          rw [if_neg (by simp [hc])]
          simp [hc, List.append_assoc]
        have hlen := congrArg List.length hcore
        simp at hlen
        omega
      · have hcore : coreStr ⟨id, name, attributes, [], content⟩ l
            = '<' :: (name ++ (attrsStr attributes ++ str "/>")) := by
          simp only [coreStr]
          rw [if_pos (by simp [hc])]
          simp
        have hlen := congrArg List.length hcore
        simp [show (str "/>").length = 2 from rfl] at hlen
        have hn1 : 1 ≤ name.length := by rw [hname]; simp
        omega
    | cons c cs =>
      have hesc : (if hasContentB content then escapeXML (content.getD []) else [])
          = escapeXML (if hasContentB content then content.getD [] else []) := by
        by_cases h : hasContentB content = true
        · simp [h]
        · simp [h, escapeXML_nil]
      set t0 : Str := if hasContentB content then content.getD [] else [] with ht0
      have hcore : coreStr ⟨id, name, attributes, c :: cs, content⟩ l
          = '<' :: (name ++ (attrsStr attributes ++ '>' ::
              (escapeXML t0 ++ ((str "\r\n" ++ indentStr (l + 1)) ++
                (seqStr (c :: cs) l ++ ('<' :: '/' :: (name ++ ['>']))))))) := by
        simp only [coreStr]
        rw [if_neg (by simp)]
        rw [hesc]
        have hd := serializeChildren_decomp2 c cs l ('<' :: '/' :: (name ++ ['>']))
        simp only [List.append_assoc, List.cons_append, List.nil_append] at hd ⊢
        rw [← hd]
        simp [List.append_assoc]
      have hlen := congrArg List.length hcore
      simp [show (str "\r\n").length = 2 from rfl] at hlen
      have hseq := needFuelL_le_seqStr (c :: cs) l hkids
      omega

theorem needFuelL_le_seqStr : ∀ (cs : List XMLNode) (l : Nat), wfNodes cs = true →
    needFuelL cs ≤ (seqStr cs l).length + 3
  | [], l, _ => by
    rw [show needFuelL ([] : List XMLNode) = 2 from rfl, show seqStr [] l = [] from rfl]
    simp
  | [c], l, hwf => by
    simp only [wfNodes, Bool.and_eq_true] at hwf
    rw [needFuelL_cons, show needFuelL ([] : List XMLNode) = 2 from rfl, seqStr_nil_eq]
    have h1 := needFuel_le_coreStr c (l + 1) hwf.1
    simp [show (str "\r\n").length = 2 from rfl]
    omega
  | c :: c2 :: cs, l, hwf => by
    simp only [wfNodes, Bool.and_eq_true] at hwf
    rw [needFuelL_cons, seqStr_cons_eq]
    have h1 := needFuel_le_coreStr c (l + 1) hwf.1
    have h2 := needFuelL_le_seqStr (c2 :: cs) l
      (by simp only [wfNodes, Bool.and_eq_true]; exact hwf.2)
    have hf := indentStr_length (l + 1)
    simp [show (str "\r\n").length = 2 from rfl]
    omega
end

mutual
theorem findParserError_domOf : ∀ (T : XMLNode) (l : Nat), wfNode T = true →
    findParserError (domOf T l) = none
  | ⟨id, name, attributes, children, content⟩, l, hwf => by
    have hwf' := hwf
    simp only [wfNode, Bool.and_eq_true] at hwf'
    obtain ⟨⟨⟨⟨hvn, hnpe⟩, hattrs⟩, hcont⟩, hkids⟩ := hwf'
    have hne : ¬(name = str "parsererror") := by simpa using hnpe
    cases children with
    | nil =>
      cases hc : hasContentB content with
      | false =>
        rw [show domOf ⟨id, name, attributes, [], content⟩ l
            = .elem name (attributes.map fun a => (a.name, a.value)) [] from by
          rw [domOf]; simp [hc]]
        simp [findParserError, findParserErrorL, hne]
      | true =>
        rw [show domOf ⟨id, name, attributes, [], content⟩ l
            = .elem name (attributes.map fun a => (a.name, a.value))
                [.text (content.getD [])] from by
          rw [domOf]; simp [hc]]
        simp [findParserError, findParserErrorL, hne]
    | cons c cs =>
      rw [show domOf ⟨id, name, attributes, c :: cs, content⟩ l
          = .elem name (attributes.map fun a => (a.name, a.value))
              (.text ((if hasContentB content then content.getD [] else [])
                  ++ str "\r\n" ++ indentStr (l + 1)) :: domSeq (c :: cs) l) from by
        rw [domOf]]
      rw [findParserError, if_neg hne, findParserErrorL, findParserError]
      exact findParserErrorL_domSeq (c :: cs) l hkids

theorem findParserErrorL_domSeq : ∀ (cs : List XMLNode) (l : Nat), wfNodes cs = true →
    findParserErrorL (domSeq cs l) = none
  | [], _, _ => rfl
  | [c], l, hwf => by
    simp only [wfNodes, Bool.and_eq_true] at hwf
    rw [show domSeq [c] l = [domOf c (l + 1), .text (str "\r\n" ++ indentStr l)] from rfl]
    rw [findParserErrorL, findParserError_domOf c (l + 1) hwf.1]
    rfl
  | c :: c2 :: cs, l, hwf => by
    simp only [wfNodes, Bool.and_eq_true] at hwf
    rw [show domSeq (c :: c2 :: cs) l
        = domOf c (l + 1) :: .text (str "\r\n" ++ indentStr (l + 1)) :: domSeq (c2 :: cs) l
      from rfl]
    rw [findParserErrorL, findParserError_domOf c (l + 1) hwf.1, findParserErrorL,
      findParserError]
    exact findParserErrorL_domSeq (c2 :: cs) l
      (by simp only [wfNodes, Bool.and_eq_true]; exact hwf.2)
end

theorem matchXMLDecl_nameStart (c2 : Char) (z : Str) (h : ¬(c2 = '?')) :
    matchXMLDecl ('<' :: c2 :: z) = none := by
  rw [matchXMLDecl]
  have hdw : ('<' :: c2 :: z).dropWhile isWS = '<' :: c2 :: z := by
    rw [List.dropWhile_cons, if_neg (by decide)]
  simp only [hdw]
  split
  · rename_i c1 cc2 c3 rest heq
    exfalso
    have : c2 = '?' := by
      have h2 := congrArg (fun s => s.get? 1) heq
      simpa using h2
    exact h this
  · rfl

theorem stripXMLDecl_nameStart (c2 : Char) (z : Str) (h : ¬(c2 = '?')) :
    stripXMLDecl ('<' :: c2 :: z) = '<' :: c2 :: z := by
  rw [stripXMLDecl, matchXMLDecl_nameStart c2 z h]

theorem stripDOCTYPE_nameStart (c2 : Char) (z : Str) (h : ¬(c2 = '!')) :
    stripDOCTYPE ('<' :: c2 :: z) = '<' :: c2 :: z := by
  rw [stripDOCTYPE]
  have hdw : ('<' :: c2 :: z).dropWhile isWS = '<' :: c2 :: z := by
    rw [List.dropWhile_cons, if_neg (by decide)]
  simp only [hdw]
  split
  · rename_i c1 cc2 c3 c4 c5 c6 c7 rest heq
    exfalso
    have : c2 = '!' := by
      have h2 := congrArg (fun s => s.get? 1) heq
      simpa using h2
    exact h this
  · rfl

theorem parseAttrs_gt (f : Nat) (r : Str) :
    parseAttrs (f + 1) ('>' :: r) = some ([], '>' :: r) := by
  rw [parseAttrs.eq_2, skipWS_cons_not '>' r (by decide)]
  simp

/-- Parsing the wrapped serialization of a well-formed tree produces the
dummy root element with the tree's DOM as its only child. -/
theorem domParse_wrapped (R : XMLNode) (hwf : wfNode R = true) :
    domParse (str "<__root__>" ++ coreStr R 0 ++ str "</__root__>")
      = .ok (.elem (str "__root__") [] [domOf R 0]) := by
  obtain ⟨n0, t0n, hname, hstart⟩ := wfNode_name_head R hwf
  obtain ⟨y, hy⟩ := coreStr_shape R 0
  have hslash : ¬(n0 = '/') := nameStart_ne n0 '/' hstart (by decide)
  have hbang : ¬(n0 = '!') := nameStart_ne n0 '!' hstart (by decide)
  have hfW := needFuel_le_coreStr R 0 hwf
  have hwrap : str "<__root__>" ++ coreStr R 0 ++ str "</__root__>"
      = '<' :: (str "__root__" ++ ('>' :: (coreStr R 0
          ++ ('<' :: '/' :: (str "__root__" ++ ['>']))))) := by
    simp [str]
  obtain ⟨K, hKeq, hKval⟩ : ∃ K,
      (str "<__root__>" ++ coreStr R 0 ++ str "</__root__>").length = K + 1
        ∧ K = (coreStr R 0).length + 20 := by
    refine ⟨(coreStr R 0).length + 20, ?_, rfl⟩
    simp [str]
  have hbody : parseContent (K + 1)
        (coreStr R 0 ++ ('<' :: '/' :: (str "__root__" ++ ['>'])))
      = some ([domOf R 0], '<' :: '/' :: (str "__root__" ++ ['>'])) := by
    have hel : parseElement K (coreStr R 0 ++ ('<' :: '/' :: (str "__root__" ++ ['>'])))
        = some (domOf R 0, '<' :: '/' :: (str "__root__" ++ ['>'])) :=
      parseElement_core R 0 K _ hwf (by omega)
    obtain ⟨K2, hK2⟩ : ∃ K2, K = K2 + 1 := ⟨K - 1, by omega⟩
    have hstop : parseContent K ('<' :: '/' :: (str "__root__" ++ ['>']))
        = some ([], '<' :: '/' :: (str "__root__" ++ ['>'])) := by
      rw [hK2]
      exact parseContent_stop K2 _
    have hWfrm : coreStr R 0 ++ ('<' :: '/' :: (str "__root__" ++ ['>']))
        = '<' :: n0 :: (t0n ++ (y ++ ('<' :: '/' :: (str "__root__" ++ ['>'])))) := by
      rw [hy, hname]
      simp
    rw [hWfrm, parseContent.eq_4, if_pos rfl, if_neg hslash, if_neg hbang, ← hWfrm]
    simp only [hel, hstop]
  have hpn : parseName (str "__root__" ++ ('>' :: (coreStr R 0
        ++ ('<' :: '/' :: (str "__root__" ++ ['>'])))))
      = some (str "__root__", '>' :: (coreStr R 0
          ++ ('<' :: '/' :: (str "__root__" ++ ['>'])))) :=
    parseName_append _ _ (by decide) (by intro x hx; simp at hx; subst hx; decide)
  have hpa : parseAttrs (('>' :: (coreStr R 0
        ++ ('<' :: '/' :: (str "__root__" ++ ['>'])))).length + 1)
        ('>' :: (coreStr R 0 ++ ('<' :: '/' :: (str "__root__" ++ ['>']))))
      = some ([], '>' :: (coreStr R 0 ++ ('<' :: '/' :: (str "__root__" ++ ['>'])))) := by
    rw [List.length_cons]
    exact parseAttrs_gt _ _
  have hpn2 : parseName (str "__root__" ++ ['>']) = some (str "__root__", ['>']) :=
    parseName_append _ _ (by decide) (by intro x hx; simp at hx; subst hx; decide)
  rw [domParse, hKeq, hwrap, skipWS_cons_not '<' _ (by decide), parseElement.eq_2, hpn]
  simp only [hpa, hbody, hpn2]
  rw [show skipWS ['>'] = ['>'] from rfl]
  simp [skipWS]

theorem jsTrim_head_ne (c : Char) (xs : Str) (h : isWS c = false) :
    jsTrim (c :: xs) ≠ [] := by
  rw [jsTrim, List.dropWhile_cons, if_neg (by simp [h])]
  intro hc
  rw [List.reverse_eq_nil_iff, List.dropWhile_eq_nil_iff] at hc
  have h2 := hc c (by simp)
  rw [h] at h2
  exact Bool.false_ne_true h2

/-- `parseXML` applied to the serialization of a well-formed tree
succeeds and returns the converted re-parsed DOM of that tree. -/
theorem parseXML_serializeXML (R : XMLNode) (hwf : wfNode R = true) :
    parseXML (serializeXML R 0) = ⟨some ((convertDom (domOf R 0) 0).1), none⟩ := by
  obtain ⟨n0, t0n, hname, hstart⟩ := wfNode_name_head R hwf
  obtain ⟨y, hy⟩ := coreStr_shape R 0
  have hser : serializeXML R 0 = coreStr R 0 := by
    rw [serializeXML_eq_core]
    simp [indentStr]
  have hcs : coreStr R 0 = '<' :: n0 :: (t0n ++ y) := by
    rw [hy, hname]
    simp
  have hne : ¬(jsTrim (coreStr R 0) = []) := by
    rw [hcs]
    exact jsTrim_head_ne '<' _ (by decide)
  have hstrip : stripDOCTYPE (stripXMLDecl (coreStr R 0)) = coreStr R 0 := by
    rw [hcs, stripXMLDecl_nameStart n0 _ (nameStart_ne n0 '?' hstart (by decide)),
      stripDOCTYPE_nameStart n0 _ (nameStart_ne n0 '!' hstart (by decide))]
  obtain ⟨a, cs, hdom⟩ : ∃ a cs, domOf R 0 = .elem R.name a cs := by
    cases R with
    | mk id name attributes children content => exact ⟨_, _, rfl⟩
  have hfpeL : findParserErrorL [domOf R 0] = none := by
    simp [findParserErrorL, findParserError_domOf R 0 hwf]
  have hfpe : findParserError (.elem (str "__root__") [] [domOf R 0]) = none := by
    rw [findParserError, if_neg (by decide)]
    exact hfpeL
  have hcc : convertChildren [domOf R 0] 0
      = ([(convertDom (domOf R 0) 0).1], [], (convertDom (domOf R 0) 0).2) := by
    cases hx : convertDom (domOf R 0) 0 with
    | mk node k1 =>
      rw [hdom] at hx
      rw [hdom]
      simp [convertChildren, hx]
  have hconv : (convertElem (str "__root__") [] [domOf R 0] 0).1
      = ⟨(convertDom (domOf R 0) 0).2, str "__root__", [],
          [(convertDom (domOf R 0) 0).1], none⟩ := by
    rw [convertElem]
    simp [convertDom, hcc, mkConvertedNode, jsTrim]
  rw [hser, parseXML, if_neg hne]
  simp only [hstrip]
  rw [domParse_wrapped R hwf]
  simp [hfpe, hconv, contentFalsy]

mutual
/-- Well-formedness of a DOM tree: every element name and attribute name
is a valid XML name (an invariant of everything `parseElement` returns).
-/
def domWF : Dom → Bool
  | .text _ => true
  | .elem n a cs => validNameB n && a.all (fun p => validNameB p.1) && domWFL cs

/-- `domWF` for every member of a child list. -/
def domWFL : List Dom → Bool
  | [] => true
  | d :: ds => domWF d && domWFL ds
end

theorem parseName_sound (s n r : Str) (h : parseName s = some (n, r)) :
    validNameB n = true := by
  cases s with
  | nil => simp [parseName] at h
  | cons c t =>
    rw [parseName] at h
    by_cases hc : isNameStart c
    · rw [if_pos hc] at h
      simp only [Option.some.injEq, Prod.mk.injEq] at h
      rw [← h.1]
      simp only [validNameB, hc, Bool.true_and, List.all_eq_true]
      intro x hx
      exact List.mem_takeWhile_imp hx
    · rw [if_neg hc] at h
      cases h

theorem parseAttrs_sound : ∀ (f : Nat) (s : Str) (A : List (Str × Str)) (r : Str),
    parseAttrs f s = some (A, r) → A.all (fun p => validNameB p.1) = true
  | 0, s, A, r, h => by simp [parseAttrs] at h
  | f + 1, s, A, r, h => by
    rw [parseAttrs.eq_2] at h
    split at h
    · cases h
    · split at h
      · cases h
        rfl
      · split at h
        · cases h
          rfl
        · split at h
          · cases h
          · rename_i n s2 hpn
            split at h
            · rename_i s4 hsw
              split at h
              · rename_i q s6 hq
                split at h
                · split at h
                  · cases h
                  · rename_i v s7 hpav
                    split at h
                    · cases h
                    · rename_i rest s8 hpa
                      cases h
                      have hn := parseName_sound _ _ _ hpn
                      have hr := parseAttrs_sound f _ _ _ hpa
                      simp [hn, hr]
                · cases h
              · cases h
            · cases h

mutual
theorem parseElement_sound : ∀ (f : Nat) (s : Str) (d : Dom) (r : Str),
    parseElement f s = some (d, r) → domWF d = true
  | 0, s, d, r, h => by rw [parseElement.eq_1] at h; cases h
  | f + 1, [], d, r, h => by
    rw [parseElement.eq_3 [] f (by intro z hz; cases hz)] at h
    cases h
  | f + 1, c :: s1, d, r, h => by
    by_cases hc : c = '<'
    · subst hc
      rw [parseElement.eq_2] at h
      split at h
      · cases h
      · rename_i n s2 hpn
        split at h
        · cases h
        · rename_i attrs s3 hpa
          split at h
          · cases h
            have hn := parseName_sound _ _ _ hpn
            have ha := parseAttrs_sound _ _ _ _ hpa
            simp [domWF, domWFL, hn, ha]
          · split at h
            · cases h
            · rename_i items s5 hpc
              split at h
              · split at h
                · cases h
                · rename_i n2 s7 hpn2
                  split at h
                  · split at h
                    · cases h
                      have hn := parseName_sound _ _ _ hpn
                      have ha := parseAttrs_sound _ _ _ _ hpa
                      have hi := parseContent_sound f _ _ _ hpc
                      simp [domWF, hn, ha, hi]
                    · cases h
                  · cases h
              · cases h
          · cases h
    · rw [parseElement.eq_3 (c :: s1) f
        (by intro z hz; injection hz with h1 h2; exact hc h1)] at h
      cases h

theorem parseContent_sound : ∀ (f : Nat) (s : Str) (ds : List Dom) (r : Str),
    parseContent f s = some (ds, r) → domWFL ds = true
  | 0, s, ds, r, h => by rw [parseContent.eq_1] at h; cases h
  | f + 1, [], ds, r, h => by rw [parseContent.eq_2] at h; cases h
  | f + 1, [c], ds, r, h => by
    rw [parseContent.eq_3] at h
    split at h
    · cases h
    · split at h
      · cases h
      · rename_i t s2 hpt
        split at h
        · cases h
        · rename_i ds2 s3 hpc
          cases h
          have h2 := parseContent_sound f _ _ _ hpc
          simp [domWFL, domWF, h2]
  | f + 1, c :: c2 :: s'', ds, r, h => by
    rw [parseContent.eq_4] at h
    split at h
    · split at h
      · cases h
        rfl
      · split at h
        · split at h
          · cases h
          · split at h
            · cases h
            · rename_i t s3 hsc
              split at h
              · cases h
              · rename_i ds2 s4 hpc
                cases h
                have hd := parseContent_sound f _ _ _ hpc
                simp [domWFL, domWF, hd]
        · split at h
          · cases h
          · rename_i d2 s2 hpe
            split at h
            · cases h
            · rename_i ds2 s3 hpc
              cases h
              have h1 := parseElement_sound f _ _ _ hpe
              have h2 := parseContent_sound f _ _ _ hpc
              simp [domWFL, h1, h2]
    · split at h
      · cases h
      · rename_i t s2 hpt
        split at h
        · cases h
        · rename_i ds2 s3 hpc
          cases h
          have h2 := parseContent_sound f _ _ _ hpc
          simp [domWFL, domWF, h2]
end

theorem domParse_sound (s : Str) (d : Dom) (h : domParse s = .ok d) :
    domWF d = true := by
  rw [domParse] at h
  split at h
  · cases h
  · rename_i p hpe
    split at h
    · cases h
      exact parseElement_sound _ _ _ _ hpe
    · cases h

theorem all_map_attr (a : List (Str × Str))
    (h : a.all (fun p => validNameB p.1) = true) :
    (a.map (fun p => XMLAttribute.mk p.1 p.2)).all
      (fun at1 => validNameB at1.name) = true := by
  induction a with
  | nil => rfl
  | cons x xs ih =>
    rw [List.all_cons, Bool.and_eq_true] at h
    simp only [List.map_cons, List.all_cons, Bool.and_eq_true]
    exact ⟨h.1, ih h.2⟩

theorem mkConvertedNode_wf (name : Str) (a : List (Str × Str))
    (children : List XMLNode) (content : Str) (k : Nat)
    (hn : validNameB name = true) (hpe : ¬(name = str "parsererror"))
    (ha : a.all (fun p => validNameB p.1) = true) (hc : wfNodes children = true) :
    wfNode (mkConvertedNode name a children content k) = true := by
  rw [mkConvertedNode, wfNode]
  have hattrs := all_map_attr a ha
  have hcont : wfContent (if jsTrim content = [] then none
      else some (jsTrim content)) = true := by
    split
    · rfl
    · rename_i hne
      simp [wfContent, jsTrim_idem, List.isEmpty_iff, hne]
  simp [hn, hpe, hattrs, hcont, hc]

mutual
theorem convertDom_wf : ∀ (d : Dom) (k : Nat) (n : Str) (a : List (Str × Str))
    (cs : List Dom), d = .elem n a cs → domWF d = true → findParserError d = none →
    wfNode (convertDom d k).1 = true
  | .text t, k, n, a, cs, hd, _, _ => by cases hd
  | .elem n0 a0 cs0, k, n, a, cs, hd, hwf, hfpe => by
    rw [domWF, Bool.and_eq_true, Bool.and_eq_true] at hwf
    obtain ⟨⟨hn, ha⟩, hcs⟩ := hwf
    rw [findParserError] at hfpe
    have hpe : ¬(n0 = str "parsererror") := by
      intro hq
      rw [if_pos hq] at hfpe
      cases hfpe
    rw [if_neg hpe] at hfpe
    rw [convertDom]
    cases hcc : convertChildren cs0 k with
    | mk children rest =>
      obtain ⟨content, k1⟩ := rest
      simp only [hcc]
      apply mkConvertedNode_wf _ _ _ _ _ hn hpe ha
      have hwfc := convertChildren_wf cs0 k hcs hfpe
      rw [hcc] at hwfc
      exact hwfc

theorem convertChildren_wf : ∀ (cs : List Dom) (k : Nat), domWFL cs = true →
    findParserErrorL cs = none → wfNodes (convertChildren cs k).1 = true
  | [], k, _, _ => rfl
  | .elem n a cs0 :: rest, k, h, hf => by
    rw [domWFL, Bool.and_eq_true] at h
    obtain ⟨h1, h2⟩ := h
    rw [findParserErrorL] at hf
    have hfe : findParserError (.elem n a cs0) = none := by
      cases hq : findParserError (.elem n a cs0) with
      | none => rfl
      | some e => rw [hq] at hf; cases hf
    rw [hfe] at hf
    simp only [] at hf
    rw [convertChildren]
    cases hx : convertDom (.elem n a cs0) k with
    | mk node k1 =>
      cases hy : convertChildren rest k1 with
      | mk ns rest2 =>
        obtain ⟨content, k2⟩ := rest2
        simp only [hx, hy]
        have hnode : wfNode node = true := by
          have hcd := convertDom_wf (.elem n a cs0) k n a cs0 rfl h1 hfe
          rw [hx] at hcd
          exact hcd
        have hns : wfNodes ns = true := by
          have hcw := convertChildren_wf rest k1 h2 hf
          rw [hy] at hcw
          exact hcw
        simp [wfNodes, hnode, hns]
  | .text t :: rest, k, h, hf => by
    rw [domWFL, Bool.and_eq_true] at h
    rw [findParserErrorL] at hf
    rw [show findParserError (.text t) = none from rfl] at hf
    simp only [] at hf
    rw [convertChildren]
    cases hy : convertChildren rest k with
    | mk ns rest2 =>
      obtain ⟨content, k2⟩ := rest2
      simp only [hy]
      have hns : wfNodes ns = true := by
        have hcw := convertChildren_wf rest k h.2 hf
        rw [hy] at hcw
        exact hcw
      simpa using hns
end

theorem wfNodes_head (l : List XMLNode) (R : XMLNode) (h : wfNodes l = true)
    (hh : l.head? = some R) : wfNode R = true := by
  cases l with
  | nil => cases hh
  | cons c cs =>
    rw [wfNodes, Bool.and_eq_true] at h
    rw [List.head?_cons] at hh
    cases hh
    exact h.1

theorem wfNode_children (T : XMLNode) (h : wfNode T = true) :
    wfNodes T.children = true := by
  cases T with
  | mk id name a c cont =>
    rw [wfNode, Bool.and_eq_true] at h
    exact h.2

theorem wfNode_rename_root (T : XMLNode) (h : wfNode T = true) :
    wfNode { T with name := str "root" } = true := by
  cases T with
  | mk id name a c cont =>
    rw [wfNode, Bool.and_eq_true, Bool.and_eq_true, Bool.and_eq_true,
      Bool.and_eq_true] at h ⊢
    obtain ⟨⟨⟨⟨h1, h2⟩, ha⟩, hc⟩, hk⟩ := h
    exact ⟨⟨⟨⟨by decide, by decide⟩, ha⟩, hc⟩, hk⟩

/-- Every root that `parseXML` returns is well-formed: valid names
everywhere, no `parsererror` element, and trimmed non-empty content. -/
theorem parseXML_wf (s : Str) (R : XMLNode) (h : (parseXML s).root = some R) :
    wfNode R = true := by
  simp only [parseXML] at h
  split at h
  · exact Option.noConfusion h
  · split at h
    · exact Option.noConfusion h
    · rename_i doc hdp
      split at h
      · exact Option.noConfusion h
      · rename_i hfpe
        split at h
        · exact Option.noConfusion h
        · rename_i n a cs
          have hwfdom : domWF (.elem n a cs) = true := domParse_sound _ _ hdp
          rw [domWF, Bool.and_eq_true, Bool.and_eq_true] at hwfdom
          obtain ⟨⟨hn, ha⟩, hcs⟩ := hwfdom
          have hw : wfNode (convertElem n a cs 0).1 = true := by
            rw [convertElem]
            exact convertDom_wf (.elem n a cs) 0 n a cs rfl
              (by rw [domWF]; simp [hn, ha, hcs]) hfpe
          split at h
          · have hh : (convertElem n a cs 0).1.children.head? = some R := h
            exact wfNodes_head _ _ (wfNode_children _ hw) hh
          · have hh : some { (convertElem n a cs 0).1 with name := str "root" }
                = some R := h
            cases hh
            exact wfNode_rename_root _ hw

mutual
/-- The C10 invariant: the content of every node in a tree is either
absent or a non-empty string equal to its own trim. -/
def contentTrimmed : XMLNode → Bool
  | ⟨_, _, _, children, content⟩ => wfContent content && contentTrimmedL children

/-- `contentTrimmed` for every member of a child list. -/
def contentTrimmedL : List XMLNode → Bool
  | [] => true
  | c :: cs => contentTrimmed c && contentTrimmedL cs
end

mutual
theorem wfNode_contentTrimmed : ∀ (T : XMLNode), wfNode T = true →
    contentTrimmed T = true
  | ⟨id, name, a, c, cont⟩, h => by
    rw [wfNode, Bool.and_eq_true, Bool.and_eq_true, Bool.and_eq_true,
      Bool.and_eq_true] at h
    obtain ⟨⟨⟨⟨h1, h2⟩, ha⟩, hc⟩, hk⟩ := h
    rw [contentTrimmed, Bool.and_eq_true]
    exact ⟨hc, wfNodes_contentTrimmedL c hk⟩

theorem wfNodes_contentTrimmedL : ∀ (l : List XMLNode), wfNodes l = true →
    contentTrimmedL l = true
  | [], _ => rfl
  | c :: cs, h => by
    rw [wfNodes, Bool.and_eq_true] at h
    rw [contentTrimmedL, Bool.and_eq_true]
    exact ⟨wfNode_contentTrimmed c h.1, wfNodes_contentTrimmedL cs h.2⟩
end

theorem stripIds_attributes (T : XMLNode) : (stripIds T).attributes = T.attributes := by
  cases T with
  | mk id name a c cont => rfl

theorem stripIds_content (T : XMLNode) : (stripIds T).content = T.content := by
  cases T with
  | mk id name a c cont => rfl

theorem stripIds_name (T : XMLNode) : (stripIds T).name = T.name := by
  cases T with
  | mk id name a c cont => rfl

example :
    (parseXML (prettifyXML (str "<aa><![CDATA[a></b]]></aa>"))).root.map XMLNode.content
      = some (some (str "a></b")) := rfl

theorem lookupGroup_addToGroups (acc : List (Str × List XMLNode)) (c : XMLNode)
    (n : Str) :
    lookupGroup n (addToGroups acc c)
      = if c.name = n then some ((lookupGroup n acc).getD [] ++ [c])
        else lookupGroup n acc := by
  induction acc with
  | nil =>
    simp only [addToGroups, lookupGroup]
    by_cases hc : c.name = n
    · simp [hc]
    · simp [hc]
  | cons p rest ih =>
    obtain ⟨m, g⟩ := p
    by_cases h1 : m = c.name
    · rw [addToGroups, if_pos h1]
      simp only [lookupGroup]
      by_cases h2 : m = n
      · have hc : c.name = n := h1 ▸ h2
        simp [h2, hc]
      · have hc : ¬(c.name = n) := fun hq => h2 (h1.trans hq)
        simp [h2, hc]
    · rw [addToGroups, if_neg h1]
      simp only [lookupGroup]
      by_cases h2 : m = n
      · have hc : ¬(c.name = n) := fun hq => h1 (h2.trans hq.symm)
        simp [h2, hc]
      · simp [h2, ih]

theorem lookupGroup_foldl : ∀ (cs : List XMLNode) (acc : List (Str × List XMLNode))
    (n : Str), lookupGroup n (cs.foldl addToGroups acc)
      = match lookupGroup n acc with
        | some g => some (g ++ cs.filter (fun c => c.name = n))
        | none => if cs.any (fun c => c.name = n)
            then some (cs.filter (fun c => c.name = n)) else none
  | [], acc, n => by
    cases h : lookupGroup n acc <;> simp [h]
  | c :: cs, acc, n => by
    rw [List.foldl_cons, lookupGroup_foldl cs (addToGroups acc c) n,
      lookupGroup_addToGroups]
    by_cases hc : c.name = n
    · cases h : lookupGroup n acc <;>
        simp [hc, h, List.filter_cons, List.any_cons]
    · cases h : lookupGroup n acc <;>
        simp [hc, h, List.filter_cons, List.any_cons]

theorem lookupGroup_groupedChildren (cs : List XMLNode) (n : Str) :
    lookupGroup n (groupedChildren cs)
      = if cs.any (fun c => c.name = n)
        then some (cs.filter (fun c => c.name = n)) else none := by
  rw [groupedChildren, lookupGroup_foldl]
  simp [lookupGroup]

/-! ## The claims -/

/-- C4: for every input string, `parseXML` returns a `ParseResult` in which
root and error are never both populated; both are absent exactly when the
input is empty or all-whitespace, and every malformed-input result has
root absent with an error string beginning `Invalid XML: `. -/
theorem c4_parse_result_states (s : Str) :
    ((parseXML s).root = none ∧ (parseXML s).error = none ↔ jsTrim s = [])
    ∧ (∀ m, (parseXML s).error = some m →
        (parseXML s).root = none ∧ str "Invalid XML: " <+: m)
    ∧ (∀ R, (parseXML s).root = some R → (parseXML s).error = none) := by
  simp only [parseXML]
  split
  · rename_i hjs
    simp [hjs]
  · rename_i hjs
    split
    · refine ⟨by simp [hjs], ?_, by simp⟩
      intro m hm
      simp only [Option.some.injEq] at hm
      exact ⟨rfl, hm ▸ List.prefix_append _ _⟩
    · rename_i doc hdp
      split
      · refine ⟨by simp [hjs], ?_, by simp⟩
        intro m hm
        simp only [Option.some.injEq] at hm
        exact ⟨rfl, hm ▸ List.prefix_append _ _⟩
      · rename_i hfpe
        split
        · refine ⟨by simp [hjs], ?_, by simp⟩
          intro m hm
          simp only [Option.some.injEq] at hm
          subst hm
          exact ⟨rfl, by decide⟩
        · rename_i n a cs
          split
          · rename_i hcond
            rw [Bool.and_eq_true, Bool.and_eq_true] at hcond
            obtain ⟨⟨h1, h2⟩, h3⟩ := hcond
            simp only [decide_eq_true_eq] at h1
            cases hch : (convertElem n a cs 0).1.children with
            | nil => rw [hch] at h1; simp at h1
            | cons c0 rest0 =>
              exact ⟨by simp [hjs], by simp, by simp⟩
          · exact ⟨by simp [hjs], by simp, by simp⟩

/-- C6: a node at address A is affected by an expand/collapse action
targeting address T exactly when the string A starts with the string T —
a plain string-prefix test, not a path-segment-aware one, so
`/foo/bar` also captures the sibling path `/foo/barbaz`. -/
theorem c6_action_affects_by_string_prefix :
    (∀ targetPath currentPath : Str,
        pathActionAffects targetPath currentPath = true ↔ targetPath <+: currentPath)
    ∧ pathActionAffects (str "/foo/bar") (str "/foo/barbaz") = true
    ∧ pathSegments (str "/foo/bar") ≠ pathSegments (str "/foo/barbaz")
    ∧ ¬(pathSegments (str "/foo/bar") <+: pathSegments (str "/foo/barbaz")) :=
  ⟨fun t c => List.isPrefixOf_iff_prefix, by decide, by decide, by decide⟩

/-- C6 witness: the general equivalence applied at an over-matching
instance. -/
theorem c6_witness :
    pathActionAffects (str "/a") (str "/ab") = true ↔ str "/a" <+: str "/ab" :=
  c6_action_affects_by_string_prefix.1 (str "/a") (str "/ab")

/-- C7 (amended): `prettifyXML` is total, and whenever parsing yields no
root — a parse error or empty input — it returns the input unchanged.
For input that parses successfully the output is the re-serialized tree,
which need not equal the input. -/
theorem c7_prettify_fail_open :
    (∀ x : Str, (parseXML x).root = none → prettifyXML x = x)
    ∧ prettifyXML (str "<a") = str "<a"
    ∧ prettifyXML (str "") = str "" := by
  refine ⟨?_, rfl, rfl⟩
  intro x hr
  cases herr : (parseXML x).error with
  | some m => simp [prettifyXML, herr]
  | none => simp [prettifyXML, herr, hr]

/-- C7 witness: the fail-open branch applied to an unparseable input. -/
theorem c7_witness : prettifyXML (str "<a><b></a>") = str "<a><b></a>" :=
  c7_prettify_fail_open.1 (str "<a><b></a>") rfl

/-- C7 counterexample: the spec says `prettify("not xml at all")` returns
the string unchanged, but the text parses as content of the synthetic
wrapper, the wrapper is renamed `root`, and prettify returns
`<root>not xml at all</root>`. -/
theorem c7_prettify_rewrites_plain_text :
    prettifyXML (str "not xml at all") = str "<root>not xml at all</root>"
    ∧ str "<root>not xml at all</root>" ≠ str "not xml at all" :=
  ⟨rfl, by decide⟩

/-- C10: every tree `parseXML` returns has, at every node, content that is
either absent or a non-empty string equal to its own trim. -/
theorem c10_content_trimmed_invariant (s : Str) (R : XMLNode)
    (h : (parseXML s).root = some R) : contentTrimmed R = true :=
  wfNode_contentTrimmed R (parseXML_wf s R h)

/-- C10 witness: the invariant on the tree parsed from
`<x><y> 1 </y></x>`, whose text fragment ` 1 ` is trimmed to `1`. -/
theorem c10_witness :
    contentTrimmed ⟨1, str "x", [], [⟨0, str "y", [], [], some (str "1")⟩], none⟩
      = true :=
  c10_content_trimmed_invariant (str "<x><y> 1 </y></x>") _ rfl

/-- C8: a node with no children and absent content serializes to a
self-closing tag with no closing tag; present content suppresses the
self-closing form and appears inline between opening and closing tags. -/
theorem c8_self_closing_serialization :
    (∀ (id1 : Nat) (name : Str) (a : List XMLAttribute) (l : Nat),
        serializeXML ⟨id1, name, a, [], none⟩ l
          = indentStr l ++ '<' :: (name ++ attrsStr a) ++ str "/>")
    ∧ (∀ (id1 : Nat) (name : Str) (a : List XMLAttribute) (l : Nat) (c : Str),
        c ≠ [] →
        serializeXML ⟨id1, name, a, [], some c⟩ l
          = indentStr l ++ '<' :: (name ++ attrsStr a)
              ++ '>' :: (escapeXML c ++ '<' :: '/' :: (name ++ ['>'])))
    ∧ serializeXML
        ⟨0, str "n", [⟨str "a", str "1"⟩, ⟨str "b", str "2"⟩], [], some (str "text")⟩ 0
        = str "<n a=\"1\" b=\"2\">text</n>"
    ∧ serializeXML ⟨0, str "n", [⟨str "a", str "1"⟩, ⟨str "b", str "2"⟩], [], none⟩ 0
        = str "<n a=\"1\" b=\"2\"/>" := by
  refine ⟨?_, ?_, rfl, rfl⟩
  · intro id1 name a l
    simp [serializeXML, hasContentB]
  · intro id1 name a l c hc
    have hlen : 0 < c.length := List.length_pos.mpr hc
    simp [serializeXML, hasContentB, hlen]

/-- C8 witness: both general equations applied at a concrete element. -/
theorem c8_witness :
    serializeXML ⟨0, str "m", [], [], some (str "t")⟩ 0
      = indentStr 0 ++ '<' :: (str "m" ++ attrsStr [])
          ++ '>' :: (escapeXML (str "t") ++ '<' :: '/' :: (str "m" ++ ['>'])) :=
  c8_self_closing_serialization.2.1 0 (str "m") [] 0 (str "t") (by decide)

/-- C9: the superseded regex-based prettifier is not equivalent to the
tree-based `prettifyXML`: on a CDATA section it splits inside the
character data and corrupts it (the reparsed content changes), and on a
`>` inside an attribute value it loses the child's indentation, while the
tree-based prettifier preserves the content and indents correctly. -/
theorem c9_regex_prettifier_diverges :
    prettifyXMLRegex (str "<aa><![CDATA[a></b]]></aa>")
        = str "<aa>\r\n  <![CDATA[a>\r\n</b]]>\r\n</aa>"
    ∧ (parseXML (str "<aa><![CDATA[a></b]]></aa>")).root.map XMLNode.content
        = some (some (str "a></b"))
    ∧ (parseXML (prettifyXMLRegex (str "<aa><![CDATA[a></b]]></aa>"))).root.map
          XMLNode.content
        = some (some (str "a>\r\n</b"))
    ∧ (parseXML (prettifyXML (str "<aa><![CDATA[a></b]]></aa>"))).root.map
          XMLNode.content
        = some (some (str "a></b"))
    ∧ prettifyXMLRegex (str "<aa x=\">\"><bb/></aa>")
        = str "<aa x=\">\">\r\n<bb/>\r\n</aa>"
    ∧ prettifyXML (str "<aa x=\">\"><bb/></aa>")
        = str "<aa x=\"&gt;\">\r\n  <bb/>\r\n</aa>"
    ∧ ∃ x, ¬(prettifyXMLRegex x = prettifyXML x) :=
  ⟨rfl, rfl, rfl, rfl, rfl, rfl, ⟨str "<aa><![CDATA[a></b]]></aa>", by decide⟩⟩

/-- C1: for every input that `parseXML` parses to a root R, serializing R
and re-parsing yields a tree equal to R up to the generated ids (and the
content, already trimmed in R, is recovered exactly). -/
theorem c1_parse_serialize_roundtrip (D : Str) (R : XMLNode)
    (h : (parseXML D).root = some R) :
    ∃ N, (parseXML (serializeXML R 0)).root = some N
      ∧ stripIds N = stripIds R := by
  have hwf := parseXML_wf D R h
  exact ⟨(convertDom (domOf R 0) 0).1, by rw [parseXML_serializeXML R hwf],
    convertDom_domOf R 0 0 hwf⟩

/-- C1 witness: the round trip at the parsed tree of `<x><y>1</y></x>`. -/
theorem c1_witness :
    ∃ N, (parseXML (serializeXML
        ⟨1, str "x", [], [⟨0, str "y", [], [], some (str "1")⟩], none⟩ 0)).root = some N
      ∧ stripIds N
          = stripIds ⟨1, str "x", [], [⟨0, str "y", [], [], some (str "1")⟩], none⟩ :=
  c1_parse_serialize_roundtrip (str "<x><y>1</y></x>") _ rfl

/-- C2 (amended): `escapeXML` substitutes `&` first, so the `&` of an
entity it introduces is not escaped again, while a pre-existing `&` is:
`escapeXML "<" = "&lt;"` and `escapeXML "&lt;" = "&amp;lt;"`.  Exact
error-free recovery of the escaped attribute values and text content under
serialize-then-re-parse is proved for every root `parseXML` returns: such
a tree, like every tree the real program serializes, carries what its
parser already checked and normalized — unique attribute names, no raw
tab, newline or carriage return in attribute values, no carriage return
in content — which is the domain on which this DOM model and a real
parser agree (see `parseAttrs`, `parseAttrValue` and `domParse` on the
deviations outside it).  For arbitrary trees the recovery fails, see the
counterexample. -/
theorem c2_escaped_serialize_roundtrip (D : Str) (R : XMLNode)
    (h : (parseXML D).root = some R) :
    escapeXML (str "<") = str "&lt;"
    ∧ escapeXML (str "&lt;") = str "&amp;lt;"
    ∧ (parseXML (serializeXML R 0)).error = none
    ∧ ∃ N, (parseXML (serializeXML R 0)).root = some N
        ∧ N.attributes = R.attributes
        ∧ N.content = R.content
        ∧ stripIds N = stripIds R := by
  have hwf := parseXML_wf D R h
  have hres := parseXML_serializeXML R hwf
  have hs := convertDom_domOf R 0 0 hwf
  refine ⟨rfl, rfl, by rw [hres], (convertDom (domOf R 0) 0).1, by rw [hres], ?_, ?_, hs⟩
  · have h2 := congrArg XMLNode.attributes hs
    rwa [stripIds_attributes, stripIds_attributes] at h2
  · have h2 := congrArg XMLNode.content hs
    rwa [stripIds_content, stripIds_content] at h2

/-- C2 witness: the round trip at the parsed root of
`<n a="1&lt;2">x &amp; y</n>`, whose attribute value and content contain
`<` and `&`. -/
theorem c2_witness :
    escapeXML (str "<") = str "&lt;"
    ∧ escapeXML (str "&lt;") = str "&amp;lt;"
    ∧ (parseXML (serializeXML
        ⟨0, str "n", [⟨str "a", str "1<2"⟩], [], some (str "x & y")⟩ 0)).error = none
    ∧ ∃ N, (parseXML (serializeXML
          ⟨0, str "n", [⟨str "a", str "1<2"⟩], [], some (str "x & y")⟩ 0)).root = some N
        ∧ N.attributes = [⟨str "a", str "1<2"⟩]
        ∧ N.content = some (str "x & y")
        ∧ stripIds N
            = stripIds ⟨0, str "n", [⟨str "a", str "1<2"⟩], [], some (str "x & y")⟩ :=
  c2_escaped_serialize_roundtrip (str "<n a=\"1&lt;2\">x &amp; y</n>")
    ⟨0, str "n", [⟨str "a", str "1<2"⟩], [], some (str "x & y")⟩ rfl

/-- C2 counterexample: the claim quantifies over every tree; a node named
`a b` with content `x&` has its content escaped, yet the serialization
`<a b>x&amp;</a b>` does not re-parse, so the values are not recovered. -/
theorem c2_escaping_insufficient_for_bad_names :
    serializeXML ⟨0, str "a b", [], [], some (str "x&")⟩ 0 = str "<a b>x&amp;</a b>"
    ∧ (parseXML (str "<a b>x&amp;</a b>")).root = none
    ∧ (parseXML (str "<a b>x&amp;</a b>")).error.isSome = true :=
  ⟨rfl, rfl, rfl⟩

/-- C3: `parseXML` applies the unwrap rule — when the converted synthetic
wrapper has exactly one child, falsy content and no attributes, that
child is the root; otherwise the wrapper is renamed `root` — so
`<x><y>1</y></x>` parses to a root named `x` and the fragment `<a/><b/>`
to a root named `root` with children `a` and `b`. -/
theorem c3_unwrap_rule (D : Str) (n : Str) (a : List (Str × Str)) (cs : List Dom)
    (hne : ¬(jsTrim D = []))
    (hdp : domParse (str "<__root__>" ++ stripDOCTYPE (stripXMLDecl D)
        ++ str "</__root__>") = .ok (.elem n a cs))
    (hfp : findParserError (.elem n a cs) = none) :
    ((parseXML D).root
      = if (convertElem n a cs 0).1.children.length = 1
            ∧ contentFalsy (convertElem n a cs 0).1.content = true
            ∧ (convertElem n a cs 0).1.attributes.isEmpty = true
        then (convertElem n a cs 0).1.children.head?
        else some { (convertElem n a cs 0).1 with name := str "root" })
    ∧ (parseXML (str "<x><y>1</y></x>")).root
        = some ⟨1, str "x", [], [⟨0, str "y", [], [], some (str "1")⟩], none⟩
    ∧ (parseXML (str "<a/><b/>")).root
        = some ⟨2, str "root", [],
            [⟨0, str "a", [], [], none⟩, ⟨1, str "b", [], [], none⟩], none⟩ := by
  refine ⟨?_, rfl, rfl⟩
  simp only [parseXML, if_neg hne, hdp, hfp]
  by_cases hcond : (convertElem n a cs 0).1.children.length = 1
      ∧ contentFalsy (convertElem n a cs 0).1.content = true
      ∧ (convertElem n a cs 0).1.attributes.isEmpty = true
  · rw [if_pos hcond]
    obtain ⟨e1, e2, e3⟩ := hcond
    simp [e1, e2, e3]
  · rw [if_neg hcond]
    have hbf : ¬((decide ((convertElem n a cs 0).1.children.length = 1)
        && contentFalsy (convertElem n a cs 0).1.content
        && (convertElem n a cs 0).1.attributes.isEmpty) = true) := by
      simpa [Bool.and_eq_true, decide_eq_true_eq, and_assoc] using hcond
    rw [if_neg hbf]

/-- C3 witness: the unwrap characterization applied to
`<x><y>1</y></x>`. -/
theorem c3_witness :
    (parseXML (str "<x><y>1</y></x>")).root
      = if (convertElem (str "__root__") []
              [.elem (str "x") [] [.elem (str "y") [] [.text (str "1")]]] 0).1.children.length = 1
            ∧ contentFalsy (convertElem (str "__root__") []
                [.elem (str "x") [] [.elem (str "y") [] [.text (str "1")]]] 0).1.content = true
            ∧ (convertElem (str "__root__") []
                [.elem (str "x") [] [.elem (str "y") [] [.text (str "1")]]] 0).1.attributes.isEmpty = true
        then (convertElem (str "__root__") []
            [.elem (str "x") [] [.elem (str "y") [] [.text (str "1")]]] 0).1.children.head?
        else some { (convertElem (str "__root__") []
            [.elem (str "x") [] [.elem (str "y") [] [.text (str "1")]]] 0).1
              with name := str "root" } :=
  (c3_unwrap_rule (str "<x><y>1</y></x>") (str "__root__") []
    [.elem (str "x") [] [.elem (str "y") [] [.text (str "1")]]]
    (by decide) rfl rfl).1

/-- C5: the members of a sibling group are exactly the same-named
children in document order; a group of one is addressed as
`parent/tag` with no index, and a group of several as `parent/tag[k]`
with k the 1-based position, so three `<item/>` under `<list>` get
`/list/item[1]`, `/list/item[2]`, `/list/item[3]`. -/
theorem c5_sibling_addresses :
    (∀ (cs : List XMLNode) (n : Str),
        lookupGroup n (groupedChildren cs)
          = if cs.any (fun c => c.name = n)
            then some (cs.filter (fun c => c.name = n)) else none)
    ∧ (∀ (p t : Str) (g : List XMLNode) (k : Nat), k < g.length → 1 < g.length →
        (pathsOfGroup p t g)[k]? = some (getIndexedPath p t k g.length))
    ∧ (∀ (p t : Str) (g : List XMLNode), g.length ≤ 1 →
        pathsOfGroup p t g = [getIndexedPath p t 0 g.length])
    ∧ (∀ (g : List XMLNode), g.length = 3 →
        pathsOfGroup (str "/list") (str "item") g
          = [str "/list/item[1]", str "/list/item[2]", str "/list/item[3]"]) := by
  refine ⟨lookupGroup_groupedChildren, ?_, ?_, ?_⟩
  · intro p t g k hk hg
    rw [pathsOfGroup, if_pos hg, getIndexedPath, if_pos hg]
    rw [List.getElem?_map, List.getElem?_range hk]
    rfl
  · intro p t g hg
    have hng : ¬(g.length > 1) := by omega
    rw [pathsOfGroup, if_neg hng, getIndexedPath, if_neg hng]
  · intro g hg
    rw [pathsOfGroup, hg]
    rfl

/-- C5 witness: the three-sibling example with concrete nodes. -/
theorem c5_witness :
    pathsOfGroup (str "/list") (str "item")
        [⟨0, str "item", [], [], none⟩, ⟨1, str "item", [], [], none⟩,
          ⟨2, str "item", [], [], none⟩]
      = [str "/list/item[1]", str "/list/item[2]", str "/list/item[3]"] :=
  c5_sibling_addresses.2.2.2 _ rfl
